import Mathlib

set_option maxHeartbeats 1000000

/-! Verification of the asset-descriptor codec and update pipeline of
lunch-money-priced-assets (src/main.py).

The Python module defines a pydantic model PricedAsset with a class-level
compiled regular expression PATTERN, a decoder from_string, a price loader
load_price, an encoder given by the dunder str method, the per-asset pipeline
update_asset_balance, and a driver main.

PATTERN is, in Python syntax,
  caret (?P<label> dot star lazy) ws-star left-bracket (?P<symbol> dot star
  lazy) right-bracket colon ws-star (?P<quantity> digit-or-dot plus lazy)
  ( ws-star at-sign ws-star (?P<currency> three uppercase A-Z letters) ws-star
    (?P<price> digit-or-dot plus greedy) ) optional, then dollar.
It is embedded below as an explicit backtracking matcher specialised to this
pattern: every quantifier is translated into the candidate list of split
points it generates (lazy = shortest prefix first, greedy = longest prefix
first), and the match is the first candidate for which the continuation
succeeds, exactly the order the Python engine explores.  The dot class
excludes the newline, and the dollar anchor accepts the end of the string or
the position just before one final newline, as in Python re without the
MULTILINE or DOTALL flags.  Character classes are modelled at the ASCII level
(all inputs exercised by the claims are ASCII).

Python Decimal values reachable here are non-negative and are modelled
exactly as a coefficient and an exponent, with the to-scientific-string
rendering used by str and the ROUND_HALF_EVEN 2-place quantisation used by
the .2f format specifier. -/

/-- Character class digit-or-dot of the quantity and price groups. -/
def isDigitDot (c : Char) : Bool := c.isDigit || c == '.'

/-- ASCII whitespace matched by the regex class backslash-s. -/
def isWS (c : Char) : Bool :=
  c == ' ' || c == '\t' || c == '\n' || c == '\x0b' || c == '\x0c' || c == '\r'

/-- Uppercase ASCII letter, the class A-Z of the currency group. -/
def isUpperAZ (c : Char) : Bool := 'A' ≤ c && c ≤ 'Z'

/-- All splits of a string into a prefix run of characters of class p and the
remainder, shortest prefix first: the candidate list explored by a star over
the class p (lazy order; greedy order is its reverse). -/
def runSplits (p : Char → Bool) : List Char → List (List Char × List Char)
  | [] => [([], [])]
  | c :: cs =>
    ([], c :: cs) ::
      (if p c then (runSplits p cs).map (fun tr => (c :: tr.1, tr.2)) else [])

/-- The dollar anchor without MULTILINE: end of string, or just before one
final newline. -/
def dollarOk : List Char → Bool
  | [] => true
  | [c] => c == '\n'
  | _ => false

/-- Remainders after a greedy whitespace star, longest consumed prefix
first. -/
def wsRests (s : List Char) : List (List Char) :=
  ((runSplits isWS s).map (fun tr => tr.2)).reverse

/-- Candidates of a lazy plus over digit-or-dot: nonempty prefix runs,
shortest first. -/
def ddRunsLazy (s : List Char) : List (List Char × List Char) :=
  (runSplits isDigitDot s).drop 1

/-- Candidates of a greedy plus over digit-or-dot: nonempty prefix runs,
longest first. -/
def ddRunsGreedy (s : List Char) : List (List Char × List Char) :=
  ((runSplits isDigitDot s).drop 1).reverse

/-- Candidates of the lazy dot star: prefixes free of newline, shortest
first. -/
def dotRuns (s : List Char) : List (List Char × List Char) :=
  runSplits (fun c => c != '\n') s

/-- The captured groups of PATTERN.  The currency and price groups live in a
single optional subgroup, so they are both present or both absent. -/
structure ReGroups where
  label : List Char
  symbol : List Char
  quantity : List Char
  priced : Option (List Char × List Char)
deriving DecidableEq, Repr

/-- Matcher for the optional clause body after the quantity: ws-star, at-sign,
ws-star, three uppercase letters, ws-star, digit-or-dot plus (greedy), then
the dollar anchor. -/
def matchPricedClause (r : List Char) : Option (List Char × List Char) :=
  (wsRests r).findSome? fun r1 =>
    match r1 with
    | '@' :: r2 =>
      (wsRests r2).findSome? fun r3 =>
        match r3 with
        | a :: b :: c :: r4 =>
          if isUpperAZ a && isUpperAZ b && isUpperAZ c then
            (wsRests r4).findSome? fun r5 =>
              (ddRunsGreedy r5).findSome? fun pr =>
                if dollarOk pr.2 then some ([a, b, c], pr.1) else none
          else none
        | _ => none
    | _ => none

/-- The optional currency-price clause: the group is greedy, so the clause is
tried first and only on failure is the empty alternative taken, which must
then reach the dollar anchor directly. -/
def matchOptPriced (r : List Char) : Option (Option (List Char × List Char)) :=
  match matchPricedClause r with
  | some cp => some (some cp)
  | none => if dollarOk r then some none else none

/-- Matcher for the part after the literal right-bracket colon: ws-star, the
lazy quantity plus, then the optional clause. -/
def matchAfterColon (r : List Char) :
    Option (List Char × Option (List Char × List Char)) :=
  (wsRests r).findSome? fun r1 =>
    (ddRunsLazy r1).findSome? fun qr =>
      (matchOptPriced qr.2).map fun cp => (qr.1, cp)

/-- Matcher for the part after the literal left-bracket: the lazy symbol dot
star, the literal right-bracket colon, then the rest. -/
def matchSymbolTail (r : List Char) :
    Option (List Char × List Char × Option (List Char × List Char)) :=
  (dotRuns r).findSome? fun sr =>
    match sr.2 with
    | ']' :: ':' :: r2 => (matchAfterColon r2).map fun qc => (sr.1, qc.1, qc.2)
    | _ => none

/-- PricedAsset.PATTERN.match on a whole input: the lazy label dot star,
ws-star, the literal left-bracket, then the rest. -/
def patternMatch (s : List Char) : Option ReGroups :=
  (dotRuns s).findSome? fun lr =>
    (wsRests lr.2).findSome? fun r1 =>
      match r1 with
      | '[' :: r2 =>
        (matchSymbolTail r2).map fun sqc => ⟨lr.1, sqc.1, sqc.2.1, sqc.2.2⟩
      | _ => none

/-- Non-negative Python Decimal: coefficient and exponent.  Decimal keeps the
coefficient as an integer, so leading zeros of the input are not recorded,
while trailing zeros are (they lower the exponent). -/
structure Dec where
  coeff : Nat
  exp : Int
deriving DecidableEq, Repr

/-- Decimal zero, the value of Decimal(0). -/
def Dec.zero : Dec := ⟨0, 0⟩

/-- The character of one decimal digit. -/
def digitChar (n : Nat) : Char := Char.ofNat (48 + n)

/-- Decimal digit characters, most significant first, with explicit fuel to
keep the recursion structural; any fuel above the argument suffices. -/
def natDigitsAux : Nat → Nat → List Char
  | 0, _ => []
  | fuel + 1, n =>
    if n < 10 then [digitChar n]
    else natDigitsAux fuel (n / 10) ++ [digitChar (n % 10)]

/-- Decimal digit characters of a natural number, most significant first. -/
def natDigits (n : Nat) : List Char := natDigitsAux (n + 1) n

/-- Value of a list of decimal digit characters, most significant first. -/
def natOfDigits (ds : List Char) : Nat :=
  ds.foldl (fun a c => 10 * a + (c.toNat - 48)) 0

/-- The Decimal constructor on a string drawn from the digit-or-dot class:
at most one dot and at least one digit, otherwise the numeral is invalid and
Decimal raises InvalidOperation (returned as none here).  This models the
constructor only on the digit-or-dot strings that from_string can pass it. -/
def decOfString (s : List Char) : Option Dec :=
  let intPart := s.takeWhile (fun c => c != '.')
  match s.dropWhile (fun c => c != '.') with
  | [] =>
    if intPart.all Char.isDigit && !intPart.isEmpty then
      some ⟨natOfDigits intPart, 0⟩
    else none
  | _ :: frac =>
    if (intPart ++ frac).all Char.isDigit && frac.all (fun c => c != '.') &&
        !(intPart ++ frac).isEmpty then
      some ⟨natOfDigits (intPart ++ frac), -(frac.length : Int)⟩
    else none

/-- str of a non-negative Decimal: the to-scientific-string conversion of the
specification Python follows.  Plain notation when the exponent is at most 0
and the adjusted exponent is at least -6, scientific notation otherwise. -/
def decStr (d : Dec) : String :=
  let ds := natDigits d.coeff
  let len : Int := ds.length
  let adj : Int := d.exp + len - 1
  if d.exp ≤ 0 ∧ -6 ≤ adj then
    if d.exp = 0 then ⟨ds⟩
    else if 0 ≤ adj then
      ⟨ds.take (len + d.exp).toNat ++ '.' :: ds.drop (len + d.exp).toNat⟩
    else ⟨'0' :: '.' :: (List.replicate (-adj - 1).toNat '0' ++ ds)⟩
  else
    ⟨ds.take 1 ++ (if 1 < ds.length then '.' :: ds.drop 1 else []) ++
      'E' :: (if adj < 0 then '-' :: natDigits (-adj).toNat
              else '+' :: natDigits adj.toNat)⟩

/-- Round n / m to an integer with ties to even, m assumed positive: the
ROUND_HALF_EVEN rule of the default Decimal context. -/
def halfEvenDiv (n m : Nat) : Nat :=
  let q := n / m
  let r := n % m
  if 2 * r < m then q else if m < 2 * r then q + 1
  else if q % 2 = 0 then q else q + 1

/-- Coefficient of a Decimal quantised to exponent -2 with ROUND_HALF_EVEN. -/
def quantCoeff2 (d : Dec) : Nat :=
  if 0 ≤ d.exp + 2 then d.coeff * 10 ^ (d.exp + 2).toNat
  else halfEvenDiv d.coeff (10 ^ (-(d.exp + 2)).toNat)

/-- A Decimal quantised to two decimal places with ROUND_HALF_EVEN: the value
reproduced by parsing the .2f rendering. -/
def quant2 (d : Dec) : Dec := ⟨quantCoeff2 d, -2⟩

/-- The .2f format of a non-negative Decimal: quantise to two decimal places
with ROUND_HALF_EVEN, then render with exactly two fractional digits. -/
def fmt2 (d : Dec) : String :=
  let c := quantCoeff2 d
  ⟨natDigits (c / 100) ++ '.' ::
    (if c % 100 < 10 then '0' :: natDigits (c % 100) else natDigits (c % 100))⟩

/-- Numeric equality of Decimals (Python ==): equal rational values. -/
def Dec.numEq (a b : Dec) : Bool :=
  a.coeff * 10 ^ (a.exp - min a.exp b.exp).toNat =
    b.coeff * 10 ^ (b.exp - min a.exp b.exp).toNat

/-- Exact product of Decimals: coefficients multiply, exponents add.  (The
default context precision of 28 significant digits never rounds any product
formed by the claims checked here.) -/
def Dec.mul (a b : Dec) : Dec := ⟨a.coeff * b.coeff, a.exp + b.exp⟩

/-- The Python exception kinds distinguished by the module: ValueError (the
FormatError of the specification, raised by from_string on a pattern
mismatch), decimal.InvalidOperation (a subclass of ArithmeticError, not of
ValueError, raised by the Decimal constructor on an invalid numeral), and any
other Exception (network faults, API faults). -/
inductive PyErr
  | valueError
  | invalidOperation
  | otherError
deriving DecidableEq, Repr

/-- The PricedAsset model: label, symbol, quantity, optional currency and
price. -/
structure PricedAsset where
  label : String
  symbol : String
  quantity : Dec
  currency : Option String
  price : Option Dec
deriving DecidableEq, Repr

namespace PricedAsset

/-- Convert a possibly failing Decimal parse into the raised exception. -/
def decExcept (l : List Char) : Except PyErr Dec :=
  match decOfString l with
  | some d => .ok d
  | none => .error .invalidOperation

/-- PricedAsset.from_string: match PATTERN against the whole input; on
failure raise ValueError; otherwise build the model, parsing quantity (with
Decimal(0) for a falsy group) and price (None for a falsy group) through the
Decimal constructor, which raises InvalidOperation on an invalid numeral.
The quantity is parsed before the price, as in the Python argument order. -/
def from_string (s : String) : Except PyErr PricedAsset :=
  match patternMatch s.data with
  | none => .error .valueError
  | some g =>
    match (if g.quantity.isEmpty then .ok Dec.zero else decExcept g.quantity :
        Except PyErr Dec) with
    | .error e => .error e
    | .ok q =>
      match (match g.priced with
             | none => Except.ok none
             | some cp =>
               if cp.2.isEmpty then .ok none else (decExcept cp.2).map some :
          Except PyErr (Option Dec)) with
      | .error e => .error e
      | .ok price =>
        .ok ⟨g.label.asString, g.symbol.asString, q,
          g.priced.map (fun cp => cp.1.asString), price⟩

/-- The value property: quantity * price when price is present, else None. -/
def value (a : PricedAsset) : Option Dec :=
  a.price.map (fun p => a.quantity.mul p)

/-- A quote-provider response as the module reads it: the currency field and
the regularMarketPrice field may each be absent. -/
structure QuoteResponse where
  currency : Option String
  regularMarketPrice : Option Dec
deriving DecidableEq, Repr

/-- PricedAsset.load_price given the provider response: currency becomes the
currency field (None when absent), price becomes Decimal of the
regularMarketPrice field with default 0 - so price is always set. -/
def load_price (a : PricedAsset) (resp : QuoteResponse) : PricedAsset :=
  { a with currency := resp.currency,
           price := some (resp.regularMarketPrice.getD Dec.zero) }

/-- The metadata suffix built by the dunder str method: space, bracketed
symbol, colon, space, the str of quantity, and when price is set an at-sign
clause whose currency segment is omitted when currency is None and whose
price is rendered with the .2f format. -/
def metaStr (a : PricedAsset) : String :=
  let m := " [" ++ a.symbol ++ "]: " ++ decStr a.quantity
  match a.price with
  | none => m
  | some p =>
    m ++ " @" ++ (match a.currency with
                  | some c => " " ++ c
                  | none => "") ++ " " ++ fmt2 p

/-- Python slicing s[:k]: for non-negative k the first k characters, for
negative k all but the last -k characters (clamped at the empty string). -/
def pySliceTo (s : String) (k : Int) : String :=
  if 0 ≤ k then ⟨s.data.take k.toNat⟩
  else ⟨s.data.take (s.length - (-k).toNat)⟩

/-- The dunder str method: the label sliced to at most 45 minus the metadata
length (a Python slice with a possibly negative bound), followed by the
metadata. -/
def toStr (a : PricedAsset) : String :=
  pySliceTo a.label (45 - (metaStr a).length) ++ metaStr a

end PricedAsset

/-- Outcome of one run of update_asset_balance, as visible to the caller:
the three caught-and-logged returns, full success, or an exception escaping
the function. -/
inductive Outcome
  | notPriced
  | priceError
  | updateError
  | success
  | uncaught (e : PyErr)
deriving DecidableEq, Repr

/-- External calls made by update_asset_balance, in order: the quote-provider
lookup and the ledger update request. -/
inductive Call
  | getQuote (symbol : String)
  | updateAsset (name : String) (currency : Option String) (balance : Dec)
deriving DecidableEq, Repr

/-- The currency argument of the ledger update: the lowercase form of the
loaded currency when it is truthy (a nonempty string), else None. -/
def pyCurrencyArg (c : Option String) : Option String :=
  match c with
  | some s => if s.isEmpty then none else some s.toLower
  | none => none

/-- The balance argument: the value, with the Python or-expression mapping a
falsy (absent or zero) value to 0.  The final lossy float conversion is not
modelled; no claim inspects the balance further. -/
def pyBalanceArg (v : Option Dec) : Dec :=
  match v with
  | some d => if d.numEq Dec.zero then Dec.zero else d
  | none => Dec.zero

/-- update_asset_balance for one ledger asset, with the outcomes of the two
external collaborators supplied as oracles.  The parse stage catches only
ValueError; the price stage and the write-back stage catch every Exception.
The returned list records the external calls that were started. -/
def update_asset_balance (name : String)
    (fetch : Except PyErr PricedAsset.QuoteResponse)
    (write : Except PyErr Unit) : Outcome × List Call :=
  match PricedAsset.from_string name with
  | .error .valueError => (.notPriced, [])
  | .error e => (.uncaught e, [])
  | .ok asset =>
    match fetch with
    | .error _ => (.priceError, [.getQuote asset.symbol])
    | .ok resp =>
      let asset := PricedAsset.load_price asset resp
      let upd : Call := .updateAsset (PricedAsset.toStr asset)
        (pyCurrencyArg asset.currency) (pyBalanceArg (PricedAsset.value asset))
      match write with
      | .error _ => (.updateError, [.getQuote asset.symbol, upd])
      | .ok _ => (.success, [.getQuote asset.symbol, upd])

/-- The driver loop of main: update each listed asset in order.  An exception
escaping update_asset_balance propagates out of the loop, so the remaining
assets are not processed; every caught outcome lets the loop continue. -/
def runAssets :
    List (String × Except PyErr PricedAsset.QuoteResponse × Except PyErr Unit) →
    List Outcome
  | [] => []
  | (name, fetch, write) :: rest =>
    match (update_asset_balance name fetch write).1 with
    | .uncaught e => [.uncaught e]
    | o => o :: runAssets rest

/-! ## Basic helper lemmas -/

/-- from_string only raises ValueError (pattern mismatch) or InvalidOperation
(Decimal constructor); no other exception kind can come out of the parse
stage. -/
theorem from_string_error_cases (s : String) (e : PyErr)
    (h : PricedAsset.from_string s = .error e) :
    e = .valueError ∨ e = .invalidOperation := by
  unfold PricedAsset.from_string at h
  cases hm : patternMatch s.data with
  | none => rw [hm] at h; cases h; exact Or.inl rfl
  | some g =>
    rw [hm] at h
    by_cases hq : g.quantity.isEmpty <;> simp only [hq, if_true, if_false] at h
    · cases hp : g.priced with
      | none => rw [hp] at h; simp at h
      | some cp =>
        rw [hp] at h
        by_cases hc : cp.2.isEmpty <;> simp only [hc, if_true, if_false] at h
        · simp at h
        · cases hd : PricedAsset.decExcept cp.2 with
          | error e2 =>
            rw [hd] at h
            unfold PricedAsset.decExcept at hd
            cases hdo : decOfString cp.2 <;> rw [hdo] at hd <;> cases hd
            cases h
            exact Or.inr rfl
          | ok d => rw [hd] at h; simp [Except.map] at h
    · cases hd : PricedAsset.decExcept g.quantity with
      | error e2 =>
        rw [hd] at h
        unfold PricedAsset.decExcept at hd
        cases hdo : decOfString g.quantity <;> rw [hdo] at hd <;> cases hd
        cases h
        exact Or.inr rfl
      | ok d =>
        rw [hd] at h
        cases hp : g.priced with
        | none => rw [hp] at h; simp at h
        | some cp =>
          rw [hp] at h
          by_cases hc : cp.2.isEmpty <;> simp only [hc, if_true, if_false] at h
          · simp at h
          · cases hd2 : PricedAsset.decExcept cp.2 with
            | error e2 =>
              rw [hd2] at h
              unfold PricedAsset.decExcept at hd2
              cases hdo : decOfString cp.2 <;> rw [hdo] at hd2 <;> cases hd2
              cases h
              exact Or.inr rfl
            | ok d2 => rw [hd2] at h; simp [Except.map] at h

/-! ## Claim C7: concrete parses -/

/-- C7: parsing "Apple [AAPL]: 10" yields label Apple, symbol AAPL, quantity
exactly 10 and unset currency and price; parsing
"Apple [AAPL]: 10 @ USD 100.00" additionally yields currency USD and price
exactly 100.00, and the derived value of that descriptor is numerically equal
to exactly 1000.00. -/
theorem c7_concrete_parses :
    PricedAsset.from_string "Apple [AAPL]: 10" =
      .ok ⟨"Apple", "AAPL", ⟨10, 0⟩, none, none⟩ ∧
    PricedAsset.from_string "Apple [AAPL]: 10 @ USD 100.00" =
      .ok ⟨"Apple", "AAPL", ⟨10, 0⟩, some "USD", some ⟨10000, -2⟩⟩ ∧
    (PricedAsset.value ⟨"Apple", "AAPL", ⟨10, 0⟩, some "USD", some ⟨10000, -2⟩⟩).map
      (fun v => v.numEq ⟨100000, -2⟩) = some true ∧
    Dec.numEq ⟨100000, -2⟩ ⟨1000, 0⟩ = true := by
  refine ⟨by rfl, by rfl, by decide, by decide⟩

/-! ## Claim C1: malformed inputs and FormatError -/

/-- C1 counterexample: the input "A [B]: .." is matched by PATTERN with
quantity group "..", and from_string then raises decimal.InvalidOperation
from the Decimal constructor - a generic numeric-parse fault, not the
FormatError (ValueError) the claim promises for every malformed input. -/
theorem c1_counterexample :
    PricedAsset.from_string "A [B]: .." = .error .invalidOperation ∧
    PricedAsset.from_string "A [B]: .." ≠ .error .valueError := by
  refine ⟨by rfl, fun h => by cases h⟩

/-- C1 amended: from_string fails with FormatError (ValueError) exactly on the
inputs PATTERN rejects - missing brackets, a quantity outside the digit-or-dot
class, a currency that is not three uppercase letters, trailing garbage; an
input that the pattern does match either parses fully or raises the generic
InvalidOperation fault when a captured numeral such as ".." is invalid. -/
theorem c1_format_error_iff_no_match (s : String) :
    PricedAsset.from_string s = .error .valueError ↔ patternMatch s.data = none := by
  constructor
  · intro h
    by_contra hne
    cases hm : patternMatch s.data with
    | none => exact hne hm
    | some g =>
      unfold PricedAsset.from_string at h
      rw [hm] at h
      by_cases hq : g.quantity.isEmpty <;> simp only [hq, if_true, if_false] at h
      · cases hp : g.priced with
        | none => rw [hp] at h; simp at h
        | some cp =>
          rw [hp] at h
          by_cases hc : cp.2.isEmpty <;> simp only [hc, if_true, if_false] at h
          · simp at h
          · cases hd : PricedAsset.decExcept cp.2 with
            | error e2 =>
              rw [hd] at h
              unfold PricedAsset.decExcept at hd
              cases hdo : decOfString cp.2 <;> rw [hdo] at hd <;> cases hd
              cases h
            | ok d => rw [hd] at h; simp [Except.map] at h
      · cases hd : PricedAsset.decExcept g.quantity with
        | error e2 =>
          rw [hd] at h
          unfold PricedAsset.decExcept at hd
          cases hdo : decOfString g.quantity <;> rw [hdo] at hd <;> cases hd
          cases h
        | ok d =>
          rw [hd] at h
          cases hp : g.priced with
          | none => rw [hp] at h; simp at h
          | some cp =>
            rw [hp] at h
            by_cases hc : cp.2.isEmpty <;> simp only [hc, if_true, if_false] at h
            · simp at h
            · cases hd2 : PricedAsset.decExcept cp.2 with
              | error e2 =>
                rw [hd2] at h
                unfold PricedAsset.decExcept at hd2
                cases hdo : decOfString cp.2 <;> rw [hdo] at hd2 <;> cases hd2
                cases h
              | ok d2 => rw [hd2] at h; simp [Except.map] at h
  · intro h
    unfold PricedAsset.from_string
    rw [h]

/-- Closed instance of the C1 amended theorem at a bracket-free input. -/
theorem c1_format_error_iff_no_match_witness :
    PricedAsset.from_string "no brackets here" = .error .valueError ↔
      patternMatch "no brackets here".data = none :=
  c1_format_error_iff_no_match "no brackets here"

/-! ## Claim C3: price and currency set together -/

/-- C3 counterexample: a provider response with no currency field (and no
regularMarketPrice field) leaves currency unset while load_price still sets
price to Decimal(0) - price present, currency absent, refuting the claim that
the two are always set together. -/
theorem c3_counterexample :
    (PricedAsset.load_price ⟨"A", "B", ⟨10, 0⟩, none, none⟩ ⟨none, none⟩).price =
      some Dec.zero ∧
    (PricedAsset.load_price ⟨"A", "B", ⟨10, 0⟩, none, none⟩ ⟨none, none⟩).currency =
      none := ⟨rfl, rfl⟩

/-- C3 amended: after any successful load_price the price is always present
(the absent regularMarketPrice field defaults to Decimal(0)) while the
currency is present exactly when the provider response carries a currency
field; so only one of the pair can be set, namely price alone, whenever the
response lacks a currency. -/
theorem c3_price_always_currency_mirrors (a : PricedAsset)
    (resp : PricedAsset.QuoteResponse) :
    (PricedAsset.load_price a resp).price.isSome = true ∧
    ((PricedAsset.load_price a resp).currency.isSome = resp.currency.isSome) ∧
    (resp.currency = none → (PricedAsset.load_price a resp).currency = none) := by
  refine ⟨rfl, rfl, fun h => ?_⟩
  simp [PricedAsset.load_price, h]

/-- Closed instance of the C3 amended theorem. -/
theorem c3_price_always_currency_mirrors_witness :
    (PricedAsset.load_price ⟨"A", "B", ⟨10, 0⟩, none, none⟩ ⟨none, none⟩).price.isSome =
      true ∧
    ((PricedAsset.load_price ⟨"A", "B", ⟨10, 0⟩, none, none⟩ ⟨none, none⟩).currency.isSome =
      (none : Option String).isSome) ∧
    ((none : Option String) = none →
      (PricedAsset.load_price ⟨"A", "B", ⟨10, 0⟩, none, none⟩ ⟨none, none⟩).currency = none) :=
  c3_price_always_currency_mirrors ⟨"A", "B", ⟨10, 0⟩, none, none⟩ ⟨none, none⟩

/-! ## Claim C5: encoded length bound -/

/-- C5 counterexample: a descriptor whose metadata suffix alone is 56
characters long (a 50-character symbol) is encoded to a 56-character string,
refuting the claim that the encoding never exceeds 45 characters regardless of
the metadata length. -/
theorem c5_counterexample :
    45 < (PricedAsset.toStr
      ⟨"Hello", "S0123456789012345678901234567890123456789012345678",
        ⟨0, 0⟩, none, none⟩).length := by decide

/-- The Python slice of the label is a list take, hence a prefix of the
label of length at most the requested bound when that bound is
non-negative. -/
theorem pySliceTo_data (s : String) (k : Int) :
    ∃ n : Nat, (PricedAsset.pySliceTo s k).data = s.data.take n ∧
      (0 ≤ k → (n : Int) ≤ k) := by
  unfold PricedAsset.pySliceTo
  by_cases h : 0 ≤ k
  · refine ⟨k.toNat, by simp [h], fun _ => by simp [Int.toNat_of_nonneg h]⟩
  · exact ⟨s.length - (-k).toNat, by simp [h], fun h0 => absurd h0 h⟩

/-- C5 amended: whenever the metadata suffix fits in 45 characters, the
encoded string is at most 45 characters long; the claim fails only for
metadata longer than 45 characters, where the negative Python slice bound
leaves the result longer than 45 characters. -/
theorem c5_length_le (a : PricedAsset)
    (h : (PricedAsset.metaStr a).length ≤ 45) :
    (PricedAsset.toStr a).length ≤ 45 := by
  obtain ⟨n, hdata, hle⟩ := pySliceTo_data a.label (45 - (PricedAsset.metaStr a).length)
  have h0 : (0 : Int) ≤ 45 - (PricedAsset.metaStr a).length := by
    omega
  have hn := hle h0
  have hlen : (PricedAsset.toStr a).length =
      (PricedAsset.pySliceTo a.label (45 - (PricedAsset.metaStr a).length)).length +
        (PricedAsset.metaStr a).length := by
    simp [PricedAsset.toStr, String.length_append]
  have hlen2 : (PricedAsset.pySliceTo a.label (45 - (PricedAsset.metaStr a).length)).length ≤ n := by
    have : (PricedAsset.pySliceTo a.label (45 - (PricedAsset.metaStr a).length)).length =
        ((PricedAsset.pySliceTo a.label (45 - (PricedAsset.metaStr a).length)).data).length := rfl
    rw [this, hdata]
    exact le_trans (List.length_take_le n _) (le_refl n)
  omega

/-- Closed instance of the C5 amended theorem. -/
theorem c5_length_le_witness :
    (PricedAsset.metaStr ⟨"Apple", "AAPL", ⟨10, 0⟩, some "USD", some ⟨10000, -2⟩⟩).length ≤ 45 ∧
    (PricedAsset.toStr ⟨"Apple", "AAPL", ⟨10, 0⟩, some "USD", some ⟨10000, -2⟩⟩).length ≤ 45 :=
  ⟨by decide, c5_length_le ⟨"Apple", "AAPL", ⟨10, 0⟩, some "USD", some ⟨10000, -2⟩⟩ (by decide)⟩

/-! ## Claim C6: metadata is a verbatim untruncated suffix -/

/-- C6: for every descriptor the encoded string is a (possibly truncated)
prefix of the label followed by the metadata suffix verbatim; shortening to
fit the length bound only ever removes label characters, never metadata
characters. -/
theorem c6_metadata_verbatim (a : PricedAsset) :
    ∃ l' : String, PricedAsset.toStr a = l' ++ PricedAsset.metaStr a ∧
      ∃ t, l'.data ++ t = a.label.data := by
  refine ⟨PricedAsset.pySliceTo a.label (45 - (PricedAsset.metaStr a).length), rfl, ?_⟩
  obtain ⟨n, hdata, _⟩ := pySliceTo_data a.label (45 - (PricedAsset.metaStr a).length)
  exact ⟨a.label.data.drop n, by rw [hdata, List.take_append_drop]⟩

/-! ## Claim C8: parse-stage short circuit -/

/-- C8: a ledger asset whose name does not match the grammar makes the update
operation return at the parse stage with the benign not-priced outcome (a
debug log, not an error): no quote-provider call and no ledger update call is
made. -/
theorem c8_short_circuit (name : String)
    (fetch : Except PyErr PricedAsset.QuoteResponse) (write : Except PyErr Unit)
    (h : patternMatch name.data = none) :
    update_asset_balance name fetch write = (.notPriced, []) := by
  unfold update_asset_balance PricedAsset.from_string
  rw [h]

/-- Closed instance of the C8 theorem at a non-matching name. -/
theorem c8_short_circuit_witness :
    update_asset_balance "Checking account" (.ok ⟨some "USD", some ⟨100, 0⟩⟩) (.ok ()) =
      (.notPriced, []) :=
  c8_short_circuit "Checking account" (.ok ⟨some "USD", some ⟨100, 0⟩⟩) (.ok ()) (by rfl)

/-! ## Claim C2: per-asset fault isolation -/

/-- C2 counterexample: the first ledger asset is named "A [B]: ..", whose
quantity matches the pattern but is an invalid numeral; the resulting
decimal.InvalidOperation is not a ValueError, escapes the parse stage of
update_asset_balance uncaught, aborts the driver loop, and the perfectly
valid second asset is never processed. -/
theorem c2_counterexample :
    runAssets [("A [B]: ..", .ok ⟨some "USD", some ⟨100, 0⟩⟩, .ok ()),
               ("Apple [AAPL]: 10", .ok ⟨some "USD", some ⟨100, 0⟩⟩, .ok ())] =
      [.uncaught .invalidOperation] := by rfl

/-- C2 amended: every fault of the price-fetch and write-back stages is caught
at the asset boundary, and a FormatError (ValueError) at the parse stage is
caught as well; the only fault that escapes update_asset_balance is a
decimal.InvalidOperation raised at the parse stage by a grammar-matching name
with an invalid numeral, and exactly then does one asset abort the processing
of the remaining assets in the run. -/
theorem c2_fault_isolation :
    (∀ (name : String) (fetch : Except PyErr PricedAsset.QuoteResponse)
        (write : Except PyErr Unit) (e : PyErr),
      (update_asset_balance name fetch write).1 = .uncaught e →
        e = .invalidOperation ∧
        PricedAsset.from_string name = .error .invalidOperation) ∧
    (∀ items : List (String × Except PyErr PricedAsset.QuoteResponse × Except PyErr Unit),
      (∀ it ∈ items, PricedAsset.from_string it.1 ≠ .error .invalidOperation) →
      (runAssets items).length = items.length) := by
  have hone : ∀ (name : String) (fetch : Except PyErr PricedAsset.QuoteResponse)
      (write : Except PyErr Unit) (e : PyErr),
      (update_asset_balance name fetch write).1 = .uncaught e →
        e = .invalidOperation ∧
        PricedAsset.from_string name = .error .invalidOperation := by
    intro name fetch write e h
    unfold update_asset_balance at h
    cases hf : PricedAsset.from_string name with
    | error e2 =>
      rcases from_string_error_cases name e2 hf with h2 | h2 <;> subst h2 <;>
        rw [hf] at h
      · cases h
      · have h2 : Outcome.uncaught PyErr.invalidOperation = Outcome.uncaught e := h
        injection h2 with h3
        exact ⟨h3.symm, rfl⟩
    | ok asset =>
      rw [hf] at h
      cases fetch with
      | error e3 => cases h
      | ok resp => cases write with
        | error e4 => simp at h
        | ok u => simp at h
  refine ⟨hone, ?_⟩
  intro items hno
  induction items with
  | nil => rfl
  | cons it rest ih =>
    obtain ⟨name, fetch, write⟩ := it
    unfold runAssets
    cases ho : (update_asset_balance name fetch write).1 with
    | uncaught e =>
      exact absurd (hone name fetch write e ho).2 (hno _ (List.mem_cons_self _ _))
    | notPriced =>
      simp only [List.length_cons]
      rw [ih fun x hx => hno x (List.mem_cons_of_mem _ hx)]
    | priceError =>
      simp only [List.length_cons]
      rw [ih fun x hx => hno x (List.mem_cons_of_mem _ hx)]
    | updateError =>
      simp only [List.length_cons]
      rw [ih fun x hx => hno x (List.mem_cons_of_mem _ hx)]
    | success =>
      simp only [List.length_cons]
      rw [ih fun x hx => hno x (List.mem_cons_of_mem _ hx)]

/-- Closed instance of the C2 amended theorem: a one-element run with a
well-formed name is fully processed. -/
theorem c2_fault_isolation_witness :
    (runAssets [("Apple [AAPL]: 10", .ok ⟨some "USD", some ⟨100, 0⟩⟩, .ok ())]).length =
      [("Apple [AAPL]: 10", (.ok ⟨some "USD", some ⟨100, 0⟩⟩ :
          Except PyErr PricedAsset.QuoteResponse), (.ok () : Except PyErr Unit))].length :=
  c2_fault_isolation.2 _ (by
    intro it hit
    rw [List.mem_singleton] at hit
    subst hit
    intro h
    cases h)

/-! ## Character class facts -/

/-- No character is both digit-or-dot and whitespace. -/
theorem not_dd_and_ws (c : Char) (h1 : isDigitDot c = true) (h2 : isWS c = true) :
    False := by
  simp [isWS] at h2
  rcases h2 with ((((h | h) | h) | h) | h) | h <;> subst h <;>
    simp [isDigitDot, Char.isDigit] at h1

/-- No character is both an uppercase letter and digit-or-dot. -/
theorem not_upper_and_dd (c : Char) (h1 : isUpperAZ c = true)
    (h2 : isDigitDot c = true) : False := by
  simp [isUpperAZ, isDigitDot, Char.isDigit] at h1 h2
  obtain ⟨ha, hb⟩ := h1
  rw [Char.le_def] at ha hb
  have ha2 : (65 : Nat) ≤ c.val.toNat := ha
  rcases h2 with ⟨h2a, h2b⟩ | h2
  · have h2c : c.val.toNat ≤ 57 := h2b
    omega
  · subst h2
    have : (65 : Nat) ≤ 46 := ha2
    omega

/-- No character is both an uppercase letter and whitespace. -/
theorem not_upper_and_ws (c : Char) (h1 : isUpperAZ c = true) (h2 : isWS c = true) :
    False := by
  simp [isWS] at h2
  rcases h2 with ((((h | h) | h) | h) | h) | h <;> subst h <;> exact Bool.noConfusion h1

/-- The dollar anchor accepts exactly the empty remainder or one newline. -/
theorem dollarOk_cases (t : List Char) (h : dollarOk t = true) :
    t = [] ∨ t = ['\n'] := by
  match t with
  | [] => exact Or.inl rfl
  | [c] =>
    simp only [dollarOk] at h
    rw [beq_iff_eq] at h
    exact Or.inr (by rw [h])
  | c :: c2 :: cs => exact absurd h (by simp [dollarOk])

/-! ## findSome? machinery -/

/-- A successful findSome? splits the list at the first success: everything
before the hit fails. -/
theorem findSome_first_success {α β : Type} (f : α → Option β) (l : List α) (b : β)
    (h : l.findSome? f = some b) :
    ∃ l1 a l2, l = l1 ++ a :: l2 ∧ f a = some b ∧ ∀ x ∈ l1, f x = none := by
  induction l with
  | nil => simp [List.findSome?] at h
  | cons a l ih =>
    rw [List.findSome?_cons] at h
    cases hfa : f a with
    | some c =>
      rw [hfa] at h
      cases h
      exact ⟨[], a, l, rfl, hfa, by simp⟩
    | none =>
      rw [hfa] at h
      obtain ⟨l1, x, l2, hl, hx, hnone⟩ := ih h
      exact ⟨a :: l1, x, l2, by rw [hl, List.cons_append], hx, by
        intro y hy
        rcases List.mem_cons.mp hy with hy | hy
        · subst hy; exact hfa
        · exact hnone y hy⟩

/-- A member success makes findSome? succeed (with some value). -/
theorem findSome_isSome_of_mem {α β : Type} (f : α → Option β) {l : List α} {a : α}
    {b : β} (hmem : a ∈ l) (hfa : f a = some b) : ∃ c, l.findSome? f = some c := by
  induction l with
  | nil => cases hmem
  | cons x l ih =>
    rw [List.findSome?_cons]
    cases hfx : f x with
    | some c => exact ⟨c, rfl⟩
    | none =>
      rcases List.mem_cons.mp hmem with he | hmem2
      · subst he; rw [hfx] at hfa; cases hfa
      · exact ih hmem2

/-- findSome? over a mapped list. -/
theorem findSome_map {α β γ : Type} (g : α → β) (f : β → Option γ) (l : List α) :
    (l.map g).findSome? f = l.findSome? (fun x => f (g x)) := by
  induction l with
  | nil => rfl
  | cons a l ih =>
    rw [List.map_cons, List.findSome?_cons, List.findSome?_cons]
    cases f (g a) <;> simp [ih]

/-- findSome? over an append. -/
theorem findSome_append {α β : Type} (f : α → Option β) (l1 l2 : List α) :
    (l1 ++ l2).findSome? f =
      match l1.findSome? f with
      | some b => some b
      | none => l2.findSome? f := by
  induction l1 with
  | nil => simp [List.findSome?]
  | cons a l ih =>
    rw [List.cons_append, List.findSome?_cons, List.findSome?_cons]
    cases f a <;> simp [ih]

/-- A successful findSome? over an initial range: there is a first successful
index and all smaller indices fail. -/
theorem findSome_range_first {β : Type} (n : Nat) (g : Nat → Option β) (b : β)
    (h : (List.range n).findSome? g = some b) :
    ∃ k, k < n ∧ g k = some b ∧ ∀ j < k, g j = none := by
  induction n with
  | zero => simp [List.findSome?] at h
  | succ m ih =>
    rw [List.range_succ, findSome_append] at h
    cases hm : (List.range m).findSome? g with
    | some c =>
      rw [hm] at h
      cases h
      obtain ⟨k, hk, hgk, hnone⟩ := ih hm
      exact ⟨k, Nat.lt_succ_of_lt hk, hgk, hnone⟩
    | none =>
      rw [hm] at h
      have hgm : g m = some b := by
        rw [List.findSome?_cons] at h
        cases hg : g m <;> rw [hg] at h
        · simp [List.findSome?] at h
        · cases h; rfl
      refine ⟨m, Nat.lt_succ_self m, hgm, fun j hj => ?_⟩
      exact List.findSome?_eq_none_iff.mp hm j (List.mem_range.mpr hj)

/-- Evaluation of findSome? over an initial range, given the first success. -/
theorem findSome_range_eval {β : Type} (n k : Nat) (g : Nat → Option β) (b : β)
    (hk : k < n) (hgk : g k = some b) (hnone : ∀ j < k, g j = none) :
    (List.range n).findSome? g = some b := by
  induction n with
  | zero => cases hk
  | succ m ih =>
    rw [List.range_succ, findSome_append]
    rcases Nat.lt_or_ge k m with hk2 | hk2
    · rw [ih hk2]
    · have hkm : k = m := by omega
      subst hkm
      have hm : (List.range k).findSome? g = none :=
        List.findSome?_eq_none_iff.mpr fun j hj => hnone j (List.mem_range.mp hj)
      rw [hm, List.findSome?_cons, hgk]

/-! ## runSplits structure -/

/-- runSplits enumerates exactly the take-drop splits whose index stays inside
the maximal prefix run of the class, in increasing index order. -/
theorem runSplits_eq_range (p : Char → Bool) (s : List Char) :
    runSplits p s =
      (List.range ((s.takeWhile p).length + 1)).map fun k => (s.take k, s.drop k) := by
  induction s with
  | nil => rfl
  | cons c cs ih =>
    by_cases hp : p c
    · have htw : (c :: cs).takeWhile p = c :: cs.takeWhile p := by
        rw [List.takeWhile_cons, if_pos hp]
      rw [runSplits, if_pos hp, ih, htw, List.length_cons]
      conv_rhs => rw [List.range_succ_eq_map]
      rw [List.map_cons, List.map_map, List.map_map]
      simp only [List.take_zero, List.drop_zero]
      have : ∀ k ∈ List.range ((List.takeWhile p cs).length + 1),
          ((fun tr => (c :: tr.1, tr.2)) ∘ fun k => (List.take k cs, List.drop k cs)) k =
          ((fun k => (List.take k (c :: cs), List.drop k (c :: cs))) ∘ Nat.succ) k := by
        intro k _
        simp [List.take_succ_cons, List.drop_succ_cons]
      rw [List.map_congr_left this]
    · rw [runSplits, if_neg hp]
      have htw : (c :: cs).takeWhile p = [] := by
        rw [List.takeWhile_cons, if_neg hp]
      rw [htw]
      rfl

/-- Membership in runSplits: exactly the splits of s with a prefix of class
p characters. -/
theorem mem_runSplits (p : Char → Bool) (s t r : List Char) :
    (t, r) ∈ runSplits p s ↔ s = t ++ r ∧ t.all p = true := by
  constructor
  · intro h
    induction s generalizing t r with
    | nil =>
      simp [runSplits] at h
      obtain ⟨ht, hr⟩ := h
      subst ht; subst hr
      exact ⟨rfl, rfl⟩
    | cons c cs ih =>
      rw [runSplits] at h
      rcases List.mem_cons.mp h with he | hm
      · cases he
        exact ⟨rfl, rfl⟩
      · by_cases hp : p c
        · rw [if_pos hp] at hm
          obtain ⟨tr, hmem, heq⟩ := List.mem_map.mp hm
          obtain ⟨hs, hall⟩ := ih tr.1 tr.2 hmem
          injection heq with h1 h2
          subst h1
          subst h2
          refine ⟨by rw [List.cons_append, ← hs], ?_⟩
          rw [List.all_cons, hp, Bool.true_and]
          exact hall
        · rw [if_neg hp] at hm
          cases hm
  · rintro ⟨hs, hall⟩
    subst hs
    induction t with
    | nil => cases s' : r <;> simp [runSplits]
    | cons c t ih =>
      rw [List.all_cons, Bool.and_eq_true] at hall
      rw [List.cons_append, runSplits, if_pos hall.1]
      exact List.mem_cons_of_mem _ (List.mem_map.mpr ⟨(t, r), ih hall.2, rfl⟩)

/-! ## Candidate list soundness -/

/-- A successful findSome? has a successful member. -/
theorem findSome_sound {α β : Type} (f : α → Option β) (l : List α) (b : β)
    (h : l.findSome? f = some b) : ∃ a ∈ l, f a = some b := by
  obtain ⟨l1, a, l2, hl, hx, _⟩ := findSome_first_success f l b h
  exact ⟨a, by rw [hl]; exact List.mem_append_right _ (List.mem_cons_self a l2), hx⟩

/-- Every remainder produced by the whitespace star really is s minus a
whitespace prefix. -/
theorem wsRests_sound (s r : List Char) (h : r ∈ wsRests s) :
    ∃ w, s = w ++ r ∧ w.all isWS = true := by
  unfold wsRests at h
  rw [List.mem_reverse] at h
  obtain ⟨tr, hmem, heq⟩ := List.mem_map.mp h
  obtain ⟨hs, hall⟩ := (mem_runSplits isWS s tr.1 tr.2).mp hmem
  exact ⟨tr.1, by rw [hs, heq], hall⟩

/-- A member of the tail of runSplits has a nonempty prefix component. -/
theorem mem_runSplits_drop1 (p : Char → Bool) (s q r : List Char)
    (h : (q, r) ∈ (runSplits p s).drop 1) :
    s = q ++ r ∧ q ≠ [] ∧ q.all p = true := by
  obtain ⟨hs, hall⟩ := (mem_runSplits p s q r).mp (List.mem_of_mem_drop h)
  refine ⟨hs, ?_, hall⟩
  cases s with
  | nil => simp [runSplits] at h
  | cons c cs =>
    rw [runSplits] at h
    simp only [List.drop_succ_cons, List.drop_zero] at h
    by_cases hp : p c
    · rw [if_pos hp] at h
      obtain ⟨tr, _, heq⟩ := List.mem_map.mp h
      injection heq with h1 h2
      rw [← h1]
      exact List.cons_ne_nil c tr.1
    · rw [if_neg hp] at h
      cases h

/-- Every candidate of the lazy digit-or-dot plus is a nonempty class run
prefix with its remainder. -/
theorem ddRunsLazy_sound (s q r : List Char) (h : (q, r) ∈ ddRunsLazy s) :
    s = q ++ r ∧ q ≠ [] ∧ q.all isDigitDot = true :=
  mem_runSplits_drop1 isDigitDot s q r h

/-- Every candidate of the greedy digit-or-dot plus is a nonempty class run
prefix with its remainder. -/
theorem ddRunsGreedy_sound (s q r : List Char) (h : (q, r) ∈ ddRunsGreedy s) :
    s = q ++ r ∧ q ≠ [] ∧ q.all isDigitDot = true := by
  unfold ddRunsGreedy at h
  exact mem_runSplits_drop1 isDigitDot s q r (List.mem_reverse.mp h)

/-- Every candidate of the lazy dot star is a newline-free prefix with its
remainder. -/
theorem dotRuns_sound (s t r : List Char) (h : (t, r) ∈ dotRuns s) :
    s = t ++ r ∧ t.all (fun c => c != '\n') = true :=
  (mem_runSplits _ s t r).mp h

/-! ## Matcher soundness: a successful match comes from a decomposition -/

/-- Soundness of the currency-price clause matcher: the input decomposes as
whitespace, the at-sign, whitespace, three uppercase letters, whitespace, a
nonempty digit-or-dot price, and a remainder accepted by the dollar anchor. -/
theorem matchPricedClause_sound (r c p : List Char)
    (h : matchPricedClause r = some (c, p)) :
    ∃ w3 a b c3 w4 w5 t,
      r = w3 ++ '@' :: (w4 ++ a :: b :: c3 :: (w5 ++ (p ++ t))) ∧
      w3.all isWS = true ∧ w4.all isWS = true ∧ w5.all isWS = true ∧
      c = [a, b, c3] ∧
      isUpperAZ a = true ∧ isUpperAZ b = true ∧ isUpperAZ c3 = true ∧
      p ≠ [] ∧ p.all isDigitDot = true ∧ dollarOk t = true := by
  unfold matchPricedClause at h
  obtain ⟨r1, hr1, hf1⟩ := findSome_sound _ _ _ h
  obtain ⟨w3, hw3eq, hw3⟩ := wsRests_sound _ _ hr1
  split at hf1
  case h_2 => cases hf1
  case h_1 r2 =>
    obtain ⟨r3, hr3, hf2⟩ := findSome_sound _ _ _ hf1
    obtain ⟨w4, hw4eq, hw4⟩ := wsRests_sound _ _ hr3
    split at hf2
    case h_2 => cases hf2
    case h_1 a b c3 r4 =>
      split at hf2
      case isFalse => cases hf2
      case isTrue hup =>
        obtain ⟨r5, hr5, hf3⟩ := findSome_sound _ _ _ hf2
        obtain ⟨w5, hw5eq, hw5⟩ := wsRests_sound _ _ hr5
        obtain ⟨pr, hpr, hf4⟩ := findSome_sound _ _ _ hf3
        obtain ⟨hpeq, hpne, hpdd⟩ := ddRunsGreedy_sound _ _ _ hpr
        split at hf4
        case isFalse => cases hf4
        case isTrue hd =>
          injection hf4 with hf5
          injection hf5 with hc hp2
          subst hc
          subst hp2
          rw [Bool.and_eq_true, Bool.and_eq_true] at hup
          refine ⟨w3, a, b, c3, w4, w5, pr.2,
            ?_, hw3, hw4, hw5, rfl, hup.1.1, hup.1.2, hup.2, hpne, hpdd, hd⟩
          rw [hw3eq, hw4eq, hw5eq, hpeq]

/-- Soundness of the optional clause matcher: either the clause matched, or
the group is empty and the remainder passes the dollar anchor. -/
theorem matchOptPriced_sound (r : List Char) (cp : Option (List Char × List Char))
    (h : matchOptPriced r = some cp) :
    (∃ c p, cp = some (c, p) ∧ matchPricedClause r = some (c, p)) ∨
      (cp = none ∧ dollarOk r = true) := by
  unfold matchOptPriced at h
  cases hm : matchPricedClause r with
  | some cp2 =>
    obtain ⟨c2, p2⟩ := cp2
    rw [hm] at h
    injection h with h2
    exact Or.inl ⟨c2, p2, h2.symm, rfl⟩
  | none =>
    rw [hm] at h
    by_cases hd : dollarOk r = true
    · rw [if_pos hd] at h
      injection h with h2
      exact Or.inr ⟨h2.symm, hd⟩
    · rw [if_neg hd] at h
      cases h

/-- Soundness of the after-colon matcher: whitespace, a nonempty digit-or-dot
quantity, then a remainder that the optional clause matcher accepts. -/
theorem matchAfterColon_sound (r q : List Char)
    (cp : Option (List Char × List Char)) (h : matchAfterColon r = some (q, cp)) :
    ∃ w2 rest, r = w2 ++ (q ++ rest) ∧ w2.all isWS = true ∧ q ≠ [] ∧
      q.all isDigitDot = true ∧ matchOptPriced rest = some cp := by
  unfold matchAfterColon at h
  obtain ⟨r1, hr1, hf1⟩ := findSome_sound _ _ _ h
  obtain ⟨w2, hw2eq, hw2⟩ := wsRests_sound _ _ hr1
  obtain ⟨qr, hqr, hf2⟩ := findSome_sound _ _ _ hf1
  obtain ⟨hqeq, hqne, hqdd⟩ := ddRunsLazy_sound _ _ _ hqr
  cases hmo : matchOptPriced qr.2 with
  | none => rw [hmo] at hf2; cases hf2
  | some cp2 =>
    rw [hmo] at hf2
    injection hf2 with hf3
    injection hf3 with hq hcp
    subst hq
    refine ⟨w2, qr.2, by rw [hw2eq, hqeq], hw2, hqne, hqdd, by rw [hmo, hcp]⟩

/-- Soundness of the symbol-tail matcher: a newline-free symbol, the literal
right-bracket colon, then a remainder the after-colon matcher accepts. -/
theorem matchSymbolTail_sound (r sym q : List Char)
    (cp : Option (List Char × List Char))
    (h : matchSymbolTail r = some (sym, q, cp)) :
    ∃ rest, r = sym ++ ']' :: ':' :: rest ∧
      sym.all (fun c => c != '\n') = true ∧
      matchAfterColon rest = some (q, cp) := by
  unfold matchSymbolTail at h
  obtain ⟨sr, hsr, hf1⟩ := findSome_sound _ _ _ h
  obtain ⟨hseq, hsnl⟩ := dotRuns_sound _ _ _ hsr
  split at hf1
  case h_2 => cases hf1
  case h_1 r2 heq =>
    cases hac : matchAfterColon r2 with
    | none => rw [hac] at hf1; cases hf1
    | some qc =>
      obtain ⟨q2, cp2⟩ := qc
      rw [hac] at hf1
      injection hf1 with hf2
      injection hf2 with hsym hrest
      injection hrest with hq hcp
      subst hsym
      subst hq
      subst hcp
      exact ⟨r2, by rw [hseq, heq], hsnl, hac⟩

/-- Soundness of the whole pattern matcher: a successful match decomposes the
input into a newline-free label, whitespace, the literal left-bracket, and a
remainder the symbol-tail matcher accepts. -/
theorem patternMatch_sound (s : List Char) (g : ReGroups)
    (h : patternMatch s = some g) :
    ∃ w1 rest, s = g.label ++ (w1 ++ '[' :: rest) ∧
      g.label.all (fun c => c != '\n') = true ∧ w1.all isWS = true ∧
      matchSymbolTail rest = some (g.symbol, g.quantity, g.priced) := by
  unfold patternMatch at h
  obtain ⟨lr, hlr, hf1⟩ := findSome_sound _ _ _ h
  obtain ⟨hleq, hlnl⟩ := dotRuns_sound _ _ _ hlr
  obtain ⟨r1, hr1, hf2⟩ := findSome_sound _ _ _ hf1
  obtain ⟨w1, hw1eq, hw1⟩ := wsRests_sound _ _ hr1
  split at hf2
  case h_2 => cases hf2
  case h_1 r2 =>
    cases hst : matchSymbolTail r2 with
    | none => rw [hst] at hf2; cases hf2
    | some sqc =>
      rw [hst] at hf2
      injection hf2 with hf3
      subst hf3
      refine ⟨w1, r2, by rw [hleq, hw1eq], hlnl, hw1, by rw [hst]⟩

/-! ## Digit string facts -/

/-- The character of a digit below 10 is a decimal digit character. -/
theorem digitChar_isDigit (n : Nat) (h : n < 10) : (digitChar n).isDigit = true := by
  interval_cases n <;> decide

/-- natDigitsAux yields decimal digit characters. -/
theorem natDigitsAux_all_digit (fuel n : Nat) :
    (natDigitsAux fuel n).all Char.isDigit = true := by
  induction fuel generalizing n with
  | zero => rfl
  | succ f ih =>
    rw [natDigitsAux]
    by_cases h : n < 10
    · rw [if_pos h]
      simp [digitChar_isDigit n h]
    · rw [if_neg h]
      rw [List.all_append]
      rw [Bool.and_eq_true]
      refine ⟨ih (n / 10), ?_⟩
      simp [digitChar_isDigit (n % 10) (Nat.mod_lt n (by norm_num))]

/-- natDigits yields decimal digit characters. -/
theorem natDigits_all_digit (n : Nat) : (natDigits n).all Char.isDigit = true :=
  natDigitsAux_all_digit (n + 1) n

/-- natDigits is never empty. -/
theorem natDigits_ne_nil (n : Nat) : natDigits n ≠ [] := by
  unfold natDigits natDigitsAux
  by_cases h : n < 10
  · rw [if_pos h]
    exact List.cons_ne_nil _ _
  · rw [if_neg h]
    simp

/-- A digit character is in the digit-or-dot class. -/
theorem dd_of_digit (c : Char) (h : c.isDigit = true) : isDigitDot c = true := by
  simp [isDigitDot, h]

/-- The .2f rendering is a nonempty string of digit-or-dot characters. -/
theorem fmt2_dd (d : Dec) :
    (fmt2 d).data ≠ [] ∧ (fmt2 d).data.all isDigitDot = true := by
  unfold fmt2
  constructor
  · simp
  · rw [List.all_append, Bool.and_eq_true]
    refine ⟨?_, ?_⟩
    · have := natDigits_all_digit (quantCoeff2 d / 100)
      rw [List.all_eq_true] at this ⊢
      exact fun c hc => dd_of_digit c (this c hc)
    · rw [List.all_cons, Bool.and_eq_true]
      refine ⟨by decide, ?_⟩
      by_cases h : quantCoeff2 d % 100 < 10
      · rw [if_pos h, List.all_cons, Bool.and_eq_true]
        refine ⟨by decide, ?_⟩
        have := natDigits_all_digit (quantCoeff2 d % 100)
        rw [List.all_eq_true] at this ⊢
        exact fun c hc => dd_of_digit c (this c hc)
      · rw [if_neg h]
        have := natDigits_all_digit (quantCoeff2 d % 100)
        rw [List.all_eq_true] at this ⊢
        exact fun c hc => dd_of_digit c (this c hc)

/-! ## No match for a price clause without currency -/

/-- Walking the reversed input: a match that ends in colon, whitespace, then a
digit-or-dot quantity cannot coincide with an encoded tail that ends in
space, at-sign, space, then a digit-or-dot price. -/
theorem revwalk_quantity (Pr : List Char) :
    ∀ (qr g2r W2 rest2 : List Char),
    Pr.all isDigitDot = true → qr.all isDigitDot = true → g2r.all isWS = true →
    qr ++ (g2r ++ ':' :: W2) = Pr ++ ' ' :: '@' :: ' ' :: rest2 → False := by
  induction Pr with
  | nil =>
    intro qr g2r W2 rest2 _ hqr hg2r heq
    rw [List.nil_append] at heq
    cases qr with
    | cons d qr2 =>
      rw [List.cons_append] at heq
      injection heq with h1 _
      subst h1
      rw [List.all_cons, Bool.and_eq_true] at hqr
      exact not_dd_and_ws _ hqr.1 (by decide)
    | nil =>
      rw [List.nil_append] at heq
      cases g2r with
      | nil =>
        rw [List.nil_append] at heq
        injection heq with h1 _
        exact absurd h1 (by decide)
      | cons w g2r2 =>
        rw [List.cons_append] at heq
        injection heq with _ h2
        cases g2r2 with
        | nil =>
          rw [List.nil_append] at h2
          injection h2 with h3 _
          exact absurd h3 (by decide)
        | cons w2 g2r3 =>
          rw [List.cons_append] at h2
          injection h2 with h3 _
          subst h3
          rw [List.all_cons, List.all_cons, Bool.and_eq_true, Bool.and_eq_true] at hg2r
          exact Bool.noConfusion hg2r.2.1
  | cons e Pr2 ih =>
    intro qr g2r W2 rest2 hPr hqr hg2r heq
    rw [List.all_cons, Bool.and_eq_true] at hPr
    obtain ⟨he, hPr2⟩ := hPr
    rw [List.cons_append] at heq
    cases qr with
    | cons d qr2 =>
      rw [List.cons_append] at heq
      injection heq with _ h2
      rw [List.all_cons, Bool.and_eq_true] at hqr
      exact ih qr2 g2r W2 rest2 hPr2 hqr.2 hg2r h2
    | nil =>
      rw [List.nil_append] at heq
      cases g2r with
      | nil =>
        rw [List.nil_append] at heq
        injection heq with h1 _
        rw [← h1] at he
        exact Bool.noConfusion he
      | cons w g2r2 =>
        rw [List.cons_append] at heq
        injection heq with h1 _
        subst h1
        rw [List.all_cons, Bool.and_eq_true] at hg2r
        exact not_dd_and_ws _ he hg2r.1

/-- Walking the reversed input: a match that ends in an uppercase currency,
whitespace, then a digit-or-dot price cannot coincide with an encoded tail
that ends in space, at-sign, space, then a digit-or-dot price. -/
theorem revwalk_price (Pr : List Char) :
    ∀ (pr w5r V2 rest2 : List Char) (c3 b3 a3 : Char),
    Pr.all isDigitDot = true → pr.all isDigitDot = true → w5r.all isWS = true →
    isUpperAZ c3 = true →
    pr ++ (w5r ++ c3 :: b3 :: a3 :: V2) = Pr ++ ' ' :: '@' :: ' ' :: rest2 → False := by
  induction Pr with
  | nil =>
    intro pr w5r V2 rest2 c3 b3 a3 _ hpr hw5r hc3 heq
    rw [List.nil_append] at heq
    cases pr with
    | cons d pr2 =>
      rw [List.cons_append] at heq
      injection heq with h1 _
      subst h1
      rw [List.all_cons, Bool.and_eq_true] at hpr
      exact not_dd_and_ws _ hpr.1 (by decide)
    | nil =>
      rw [List.nil_append] at heq
      cases w5r with
      | nil =>
        rw [List.nil_append] at heq
        injection heq with h1 _
        subst h1
        exact Bool.noConfusion hc3
      | cons w w5r2 =>
        rw [List.cons_append] at heq
        injection heq with _ h2
        cases w5r2 with
        | nil =>
          rw [List.nil_append] at h2
          injection h2 with h3 _
          subst h3
          exact Bool.noConfusion hc3
        | cons w2 w5r3 =>
          rw [List.cons_append] at h2
          injection h2 with h3 _
          subst h3
          rw [List.all_cons, List.all_cons, Bool.and_eq_true, Bool.and_eq_true] at hw5r
          exact Bool.noConfusion hw5r.2.1
  | cons e Pr2 ih =>
    intro pr w5r V2 rest2 c3 b3 a3 hPr hpr hw5r hc3 heq
    rw [List.all_cons, Bool.and_eq_true] at hPr
    obtain ⟨he, hPr2⟩ := hPr
    rw [List.cons_append] at heq
    cases pr with
    | cons d pr2 =>
      rw [List.cons_append] at heq
      injection heq with _ h2
      rw [List.all_cons, Bool.and_eq_true] at hpr
      exact ih pr2 w5r V2 rest2 c3 b3 a3 hPr2 hpr.2 hw5r hc3 h2
    | nil =>
      rw [List.nil_append] at heq
      cases w5r with
      | nil =>
        rw [List.nil_append] at heq
        injection heq with h1 _
        subst h1
        exact not_upper_and_dd _ hc3 he
      | cons w w5r2 =>
        rw [List.cons_append] at heq
        injection heq with h1 _
        subst h1
        rw [List.all_cons, Bool.and_eq_true] at hw5r
        exact not_dd_and_ws _ he hw5r.1

/-! ## Claim C10: price clause without currency round trip -/

/-- C10: when price is set but currency is unset (as load_price leaves a
descriptor when the provider response has no currency field), the encoder
emits the price clause without a currency segment, and the resulting name is
rejected by from_string with FormatError (ValueError) - on the next run the
asset is no longer recognised as priced. -/
theorem c10_priceless_currency_not_reparsed (d : PricedAsset) (p : Dec)
    (hp : d.price = some p) (hc : d.currency = none) :
    PricedAsset.metaStr d =
      " [" ++ d.symbol ++ "]: " ++ decStr d.quantity ++ " @ " ++ fmt2 p ∧
    PricedAsset.from_string (PricedAsset.toStr d) = .error .valueError := by
  have hmeta : PricedAsset.metaStr d =
      " [" ++ d.symbol ++ "]: " ++ decStr d.quantity ++ " @ " ++ fmt2 p := by
    unfold PricedAsset.metaStr
    rw [hp, hc]
    apply String.ext
    simp [String.data_append, List.append_assoc]
  refine ⟨hmeta, ?_⟩
  have hdata : (PricedAsset.toStr d).data =
      ((PricedAsset.pySliceTo d.label (45 - (PricedAsset.metaStr d).length)).data ++
        (' ' :: '[' :: (d.symbol.data ++ ']' :: ':' :: ' ' :: (decStr d.quantity).data))) ++
        (' ' :: '@' :: ' ' :: (fmt2 p).data) := by
    rw [PricedAsset.toStr]
    nth_rewrite 2 [hmeta]
    simp [String.data_append, List.append_assoc]
  have hnone : patternMatch (PricedAsset.toStr d).data = none := by
    cases hm : patternMatch (PricedAsset.toStr d).data with
    | none => rfl
    | some g =>
      exfalso
      obtain ⟨w1, rest0, hseq, hlnl, hw1, hst⟩ := patternMatch_sound _ _ hm
      obtain ⟨rest1, hr0eq, hsnl, hac⟩ := matchSymbolTail_sound _ _ _ _ hst
      obtain ⟨w2, rest2, hr1eq, hw2, hqne, hqdd, hopt⟩ := matchAfterColon_sound _ _ _ hac
      have hs : ((PricedAsset.pySliceTo d.label (45 - (PricedAsset.metaStr d).length)).data ++
          (' ' :: '[' :: (d.symbol.data ++ ']' :: ':' :: ' ' :: (decStr d.quantity).data))) ++
          (' ' :: '@' :: ' ' :: (fmt2 p).data) =
          g.label ++ (w1 ++ '[' :: (g.symbol ++ ']' :: ':' :: (w2 ++ (g.quantity ++ rest2)))) := by
        rw [← hdata, hseq, hr0eq, hr1eq]
      rcases matchOptPriced_sound _ _ hopt with ⟨c, p2, hcp, hclause⟩ | ⟨hcp, hdollar⟩
      · obtain ⟨w3, a, b, c3, w4, w5, t, hr2eq, hw3, hw4, hw5, hceq, hua, hub, huc,
          hpne, hpdd, hdt⟩ := matchPricedClause_sound _ _ _ hclause
        rcases dollarOk_cases _ hdt with ht | ht <;> subst ht <;> rw [hr2eq] at hs <;>
          replace hs := congrArg List.reverse hs <;>
          simp only [List.reverse_append, List.reverse_cons, List.append_assoc,
            List.append_nil, List.reverse_nil, List.nil_append, List.singleton_append,
            List.cons_append] at hs
        · exact revwalk_price ((fmt2 p).data.reverse) p2.reverse w5.reverse _ _ c3 b a
            (by rw [List.all_reverse]; exact (fmt2_dd p).2)
            (by rw [List.all_reverse]; exact hpdd)
            (by rw [List.all_reverse]; exact hw5) huc hs.symm
        · obtain ⟨hne, hdd⟩ := fmt2_dd p
          cases hpd : (fmt2 p).data.reverse with
          | nil => exact hne (List.reverse_eq_nil_iff.mp hpd)
          | cons e tl =>
            rw [hpd, List.cons_append] at hs
            injection hs with h1 _
            have hed : isDigitDot e = true := by
              have h2 : ((fmt2 p).data.reverse).all isDigitDot = true := by
                rw [List.all_reverse]; exact hdd
              rw [hpd, List.all_cons, Bool.and_eq_true] at h2
              exact h2.1
            rw [h1] at hed
            exact Bool.noConfusion hed
      · rcases dollarOk_cases _ hdollar with ht | ht <;> subst ht <;>
          replace hs := congrArg List.reverse hs <;>
          simp only [List.reverse_append, List.reverse_cons, List.append_assoc,
            List.append_nil, List.reverse_nil, List.nil_append, List.singleton_append,
            List.cons_append] at hs
        · exact revwalk_quantity ((fmt2 p).data.reverse) g.quantity.reverse w2.reverse _ _
            (by rw [List.all_reverse]; exact (fmt2_dd p).2)
            (by rw [List.all_reverse]; exact hqdd)
            (by rw [List.all_reverse]; exact hw2) hs.symm
        · obtain ⟨hne, hdd⟩ := fmt2_dd p
          cases hpd : (fmt2 p).data.reverse with
          | nil => exact hne (List.reverse_eq_nil_iff.mp hpd)
          | cons e tl =>
            rw [hpd, List.cons_append] at hs
            injection hs with h1 _
            have hed : isDigitDot e = true := by
              have h2 : ((fmt2 p).data.reverse).all isDigitDot = true := by
                rw [List.all_reverse]; exact hdd
              rw [hpd, List.all_cons, Bool.and_eq_true] at h2
              exact h2.1
            rw [h1] at hed
            exact Bool.noConfusion hed
  unfold PricedAsset.from_string
  rw [hnone]

/-- Closed instance of the C10 theorem: the written-back name of a priced
asset with no currency is not recognised on the next run. -/
theorem c10_priceless_currency_not_reparsed_witness :
    PricedAsset.metaStr ⟨"A", "B", ⟨10, 0⟩, none, some ⟨55, -1⟩⟩ =
      " [" ++ "B" ++ "]: " ++ decStr ⟨10, 0⟩ ++ " @ " ++ fmt2 ⟨55, -1⟩ ∧
    PricedAsset.from_string (PricedAsset.toStr ⟨"A", "B", ⟨10, 0⟩, none, some ⟨55, -1⟩⟩) =
      .error .valueError :=
  c10_priceless_currency_not_reparsed ⟨"A", "B", ⟨10, 0⟩, none, some ⟨55, -1⟩⟩ ⟨55, -1⟩ rfl rfl

/-! ## Appending one final newline -/

/-- Pointwise equal functions give equal findSome?. -/
theorem findSome_congr {α β : Type} (f g : α → Option β) (l : List α)
    (h : ∀ a ∈ l, f a = g a) : l.findSome? f = l.findSome? g := by
  induction l with
  | nil => rfl
  | cons a l ih =>
    rw [List.findSome?_cons, List.findSome?_cons, h a (List.mem_cons_self a l)]
    cases g a with
    | some b => rfl
    | none => exact ih fun x hx => h x (List.mem_cons_of_mem a hx)

/-- The last character of a suffix is the last character of the whole. -/
theorem lastOK_suffix (a b : List Char) (h : (a ++ b).getLast? ≠ some '\n') :
    b.getLast? ≠ some '\n' := by
  intro hb
  apply h
  cases b with
  | nil => cases hb
  | cons x xs =>
    rw [List.getLast?_append_of_ne_nil]
    · exact hb
    · exact List.cons_ne_nil x xs

/-- The dollar anchor is unchanged by appending a newline to a string that
does not already end with one. -/
theorem dollarOk_append_nl (xs : List Char) (h : xs.getLast? ≠ some '\n') :
    dollarOk (xs ++ ['\n']) = dollarOk xs := by
  match xs with
  | [] => rfl
  | [c] =>
    have hc : c ≠ '\n' := fun he => h (by rw [he]; rfl)
    have h1 : dollarOk ([c] ++ ['\n']) = false := rfl
    have h2 : dollarOk [c] = false := by
      simp only [dollarOk, beq_eq_false_iff_ne, ne_eq]
      exact hc
    rw [h1, h2]
  | c :: c2 :: cs =>
    have h1 : dollarOk ((c :: c2 :: cs) ++ ['\n']) = false := by
      rw [List.cons_append, List.cons_append]
      rfl
    rw [h1]
    rfl

/-- Appending a newline to the input of a star over a class that excludes it
just carries the newline into every remainder. -/
theorem runSplits_append_nl (p : Char → Bool) (hp : p '\n' = false) (xs : List Char) :
    runSplits p (xs ++ ['\n']) = (runSplits p xs).map (fun tr => (tr.1, tr.2 ++ ['\n'])) := by
  induction xs with
  | nil =>
    rw [List.nil_append, runSplits, runSplits, hp]
    rfl
  | cons c cs ih =>
    rw [List.cons_append, runSplits, runSplits, ih]
    by_cases hc : p c
    · rw [if_pos hc, if_pos hc, List.map_cons, List.map_map, List.map_map]
      rfl
    · rw [if_neg hc, if_neg hc]
      rfl

/-- Appending a newline to the input of the whitespace star, when the input is
not all whitespace: the newline is carried into every remainder. -/
theorem runSplits_ws_append_nl (xs : List Char) (h : xs.all isWS = false) :
    runSplits isWS (xs ++ ['\n']) =
      (runSplits isWS xs).map (fun tr => (tr.1, tr.2 ++ ['\n'])) := by
  induction xs with
  | nil => cases h
  | cons c cs ih =>
    rw [List.cons_append, runSplits, runSplits]
    by_cases hc : isWS c
    · rw [List.all_cons, hc, Bool.true_and] at h
      rw [if_pos hc, if_pos hc, ih h, List.map_cons, List.map_map, List.map_map]
      rfl
    · rw [if_neg hc, if_neg hc]
      rfl

/-- Appending a newline to the input of the whitespace star, when the input is
all whitespace: one extra split consuming everything appears at the end. -/
theorem runSplits_ws_append_nl_all (xs : List Char) (h : xs.all isWS = true) :
    runSplits isWS (xs ++ ['\n']) =
      (runSplits isWS xs).map (fun tr => (tr.1, tr.2 ++ ['\n'])) ++ [(xs ++ ['\n'], [])] := by
  induction xs with
  | nil =>
    rw [List.nil_append, runSplits, runSplits]
    rfl
  | cons c cs ih =>
    rw [List.all_cons, Bool.and_eq_true] at h
    rw [List.cons_append, runSplits, runSplits, if_pos h.1, if_pos h.1, ih h.2]
    simp [Function.comp_def, List.cons_append]

/-- wsRests after appending a newline, input not all whitespace. -/
theorem wsRests_append_nl (xs : List Char) (h : xs.all isWS = false) :
    wsRests (xs ++ ['\n']) = (wsRests xs).map (· ++ ['\n']) := by
  unfold wsRests
  rw [runSplits_ws_append_nl xs h, List.map_map, List.map_reverse, List.map_map]
  simp [Function.comp_def]

/-- wsRests after appending a newline, input all whitespace: the greedy star
gains a first candidate that consumes everything, with empty remainder. -/
theorem wsRests_append_nl_all (xs : List Char) (h : xs.all isWS = true) :
    wsRests (xs ++ ['\n']) = [] :: (wsRests xs).map (· ++ ['\n']) := by
  unfold wsRests
  rw [runSplits_ws_append_nl_all xs h, List.map_append, List.reverse_append,
    List.map_map, List.map_reverse, List.map_map]
  simp [Function.comp_def]

/-- The lazy digit-or-dot candidates after appending a newline. -/
theorem ddRunsLazy_append_nl (xs : List Char) :
    ddRunsLazy (xs ++ ['\n']) =
      (ddRunsLazy xs).map (fun tr => (tr.1, tr.2 ++ ['\n'])) := by
  unfold ddRunsLazy
  rw [runSplits_append_nl isDigitDot (by decide) xs, ← List.map_drop]

/-- The greedy digit-or-dot candidates after appending a newline. -/
theorem ddRunsGreedy_append_nl (xs : List Char) :
    ddRunsGreedy (xs ++ ['\n']) =
      (ddRunsGreedy xs).map (fun tr => (tr.1, tr.2 ++ ['\n'])) := by
  unfold ddRunsGreedy
  rw [runSplits_append_nl isDigitDot (by decide) xs, ← List.map_drop, List.map_reverse]

/-- The lazy dot star candidates after appending a newline. -/
theorem dotRuns_append_nl (xs : List Char) :
    dotRuns (xs ++ ['\n']) = (dotRuns xs).map (fun tr => (tr.1, tr.2 ++ ['\n'])) :=
  runSplits_append_nl _ (by decide) xs

/-- The price-and-anchor tail of the clause matcher is unchanged by a final
newline appended to an input that does not already end with one. -/
theorem priceEnd_append_nl {β : Type} (v : List Char → β) (r4 : List Char)
    (h : r4.getLast? ≠ some '\n') :
    ((wsRests (r4 ++ ['\n'])).findSome? fun r5 =>
      (ddRunsGreedy r5).findSome? fun pr =>
        if dollarOk pr.2 then some (v pr.1) else none) =
    ((wsRests r4).findSome? fun r5 =>
      (ddRunsGreedy r5).findSome? fun pr =>
        if dollarOk pr.2 then some (v pr.1) else none) := by
  have hpoint : ∀ r5 ∈ wsRests r4,
      ((ddRunsGreedy (r5 ++ ['\n'])).findSome? fun pr =>
        if dollarOk pr.2 then some (v pr.1) else none) =
      ((ddRunsGreedy r5).findSome? fun pr =>
        if dollarOk pr.2 then some (v pr.1) else none) := by
    intro r5 hr5
    obtain ⟨w, hw, _⟩ := wsRests_sound _ _ hr5
    have hr5last : r5.getLast? ≠ some '\n' := lastOK_suffix w r5 (hw ▸ h)
    rw [ddRunsGreedy_append_nl, findSome_map]
    apply findSome_congr
    intro pr hpr
    obtain ⟨hpr1, _, _⟩ := ddRunsGreedy_sound _ _ _ hpr
    have : pr.2.getLast? ≠ some '\n' := lastOK_suffix pr.1 pr.2 (hpr1 ▸ hr5last)
    rw [dollarOk_append_nl pr.2 this]
  by_cases hall : r4.all isWS = true
  · rw [wsRests_append_nl_all r4 hall, List.findSome?_cons]
    have hnil : ((ddRunsGreedy ([] : List Char)).findSome? fun pr =>
        if dollarOk pr.2 then some (v pr.1) else none) = none := rfl
    rw [hnil, findSome_map]
    exact findSome_congr _ _ _ hpoint
  · rw [wsRests_append_nl r4 (Bool.eq_false_iff.mpr hall), findSome_map]
    exact findSome_congr _ _ _ hpoint

/-- The currency-and-price tail of the clause matcher is unchanged by a final
newline appended to an input that does not already end with one. -/
theorem atTail_append_nl (r2 : List Char) (h : r2.getLast? ≠ some '\n') :
    ((wsRests (r2 ++ ['\n'])).findSome? fun r3 =>
      match r3 with
      | a :: b :: c :: r4 =>
        if isUpperAZ a && isUpperAZ b && isUpperAZ c then
          (wsRests r4).findSome? fun r5 =>
            (ddRunsGreedy r5).findSome? fun pr =>
              if dollarOk pr.2 then some (([a, b, c], pr.1)) else none
        else none
      | _ => none) =
    ((wsRests r2).findSome? fun r3 =>
      match r3 with
      | a :: b :: c :: r4 =>
        if isUpperAZ a && isUpperAZ b && isUpperAZ c then
          (wsRests r4).findSome? fun r5 =>
            (ddRunsGreedy r5).findSome? fun pr =>
              if dollarOk pr.2 then some (([a, b, c], pr.1)) else none
        else none
      | _ => none) := by
  have hpoint : ∀ r3 ∈ wsRests r2,
      (match r3 ++ ['\n'] with
      | a :: b :: c :: r4 =>
        if isUpperAZ a && isUpperAZ b && isUpperAZ c then
          (wsRests r4).findSome? fun r5 =>
            (ddRunsGreedy r5).findSome? fun pr =>
              if dollarOk pr.2 then some (([a, b, c], pr.1)) else none
        else none
      | _ => none : Option (List Char × List Char)) =
      (match r3 with
      | a :: b :: c :: r4 =>
        if isUpperAZ a && isUpperAZ b && isUpperAZ c then
          (wsRests r4).findSome? fun r5 =>
            (ddRunsGreedy r5).findSome? fun pr =>
              if dollarOk pr.2 then some (([a, b, c], pr.1)) else none
        else none
      | _ => none : Option (List Char × List Char)) := by
    intro r3 hr3
    obtain ⟨w, hw, _⟩ := wsRests_sound _ _ hr3
    have hr3last : r3.getLast? ≠ some '\n' := lastOK_suffix w r3 (hw ▸ h)
    rcases r3 with _ | ⟨a, _ | ⟨b, _ | ⟨c, r4⟩⟩⟩
    · rfl
    · rfl
    · show (if isUpperAZ a && isUpperAZ b && isUpperAZ '\n' then
          (wsRests ([] : List Char)).findSome? fun r5 =>
            (ddRunsGreedy r5).findSome? fun pr =>
              if dollarOk pr.2 then some (([a, b, '\n'], pr.1)) else none
        else none) = none
      rw [show isUpperAZ '\n' = false from rfl, Bool.and_false]
      rfl
    · show (if isUpperAZ a && isUpperAZ b && isUpperAZ c then
          (wsRests (r4 ++ ['\n'])).findSome? fun r5 =>
            (ddRunsGreedy r5).findSome? fun pr =>
              if dollarOk pr.2 then some (([a, b, c], pr.1)) else none
        else none) =
        (if isUpperAZ a && isUpperAZ b && isUpperAZ c then
          (wsRests r4).findSome? fun r5 =>
            (ddRunsGreedy r5).findSome? fun pr =>
              if dollarOk pr.2 then some (([a, b, c], pr.1)) else none
        else none)
      by_cases hup : (isUpperAZ a && isUpperAZ b && isUpperAZ c) = true
      · rw [if_pos hup, if_pos hup]
        have hr4last : r4.getLast? ≠ some '\n' :=
          lastOK_suffix [a, b, c] r4 hr3last
        exact priceEnd_append_nl (fun p1 => ([a, b, c], p1)) r4 hr4last
      · rw [if_neg hup, if_neg hup]
  by_cases hall : r2.all isWS = true
  · rw [wsRests_append_nl_all r2 hall, List.findSome?_cons]
    have hnil : (match ([] : List Char) with
      | a :: b :: c :: r4 =>
        if isUpperAZ a && isUpperAZ b && isUpperAZ c then
          (wsRests r4).findSome? fun r5 =>
            (ddRunsGreedy r5).findSome? fun pr =>
              if dollarOk pr.2 then some (([a, b, c], pr.1)) else none
        else none
      | _ => none : Option (List Char × List Char)) = none := rfl
    rw [hnil, findSome_map]
    exact findSome_congr _ _ _ hpoint
  · rw [wsRests_append_nl r2 (Bool.eq_false_iff.mpr hall), findSome_map]
    exact findSome_congr _ _ _ hpoint

/-- The full clause matcher is unchanged by a final newline appended to an
input that does not already end with one. -/
theorem matchPricedClause_append_nl (xs : List Char) (h : xs.getLast? ≠ some '\n') :
    matchPricedClause (xs ++ ['\n']) = matchPricedClause xs := by
  unfold matchPricedClause
  have hpoint : ∀ r1 ∈ wsRests xs,
      (match r1 ++ ['\n'] with
      | '@' :: r2 =>
        (wsRests r2).findSome? fun r3 =>
          match r3 with
          | a :: b :: c :: r4 =>
            if isUpperAZ a && isUpperAZ b && isUpperAZ c then
              (wsRests r4).findSome? fun r5 =>
                (ddRunsGreedy r5).findSome? fun pr =>
                  if dollarOk pr.2 then some ([a, b, c], pr.1) else none
            else none
          | _ => none
      | _ => none : Option (List Char × List Char)) =
      (match r1 with
      | '@' :: r2 =>
        (wsRests r2).findSome? fun r3 =>
          match r3 with
          | a :: b :: c :: r4 =>
            if isUpperAZ a && isUpperAZ b && isUpperAZ c then
              (wsRests r4).findSome? fun r5 =>
                (ddRunsGreedy r5).findSome? fun pr =>
                  if dollarOk pr.2 then some ([a, b, c], pr.1) else none
            else none
          | _ => none
      | _ => none : Option (List Char × List Char)) := by
    intro r1 hr1
    obtain ⟨w, hw, _⟩ := wsRests_sound _ _ hr1
    have hr1last : r1.getLast? ≠ some '\n' := lastOK_suffix w r1 (hw ▸ h)
    split
    case h_1 r2 heq =>
      cases r1 with
      | nil =>
        rw [List.nil_append] at heq
        injection heq with hx _
        exact absurd hx (by decide)
      | cons x t =>
        rw [List.cons_append] at heq
        injection heq with hx ht
        subst hx
        subst ht
        have htlast : t.getLast? ≠ some '\n' := lastOK_suffix ['@'] t hr1last
        exact atTail_append_nl t htlast
    case h_2 hne =>
      split
      case h_1 r2 =>
        exact (hne (r2 ++ ['\n']) (List.cons_append '@' r2 ['\n'])).elim
      case h_2 => rfl
  by_cases hall : xs.all isWS = true
  · rw [wsRests_append_nl_all xs hall, List.findSome?_cons]
    have hnil : (match ([] : List Char) with
      | '@' :: r2 =>
        (wsRests r2).findSome? fun r3 =>
          match r3 with
          | a :: b :: c :: r4 =>
            if isUpperAZ a && isUpperAZ b && isUpperAZ c then
              (wsRests r4).findSome? fun r5 =>
                (ddRunsGreedy r5).findSome? fun pr =>
                  if dollarOk pr.2 then some ([a, b, c], pr.1) else none
            else none
          | _ => none
      | _ => none : Option (List Char × List Char)) = none := rfl
    rw [hnil, findSome_map]
    exact findSome_congr _ _ _ hpoint
  · rw [wsRests_append_nl xs (Bool.eq_false_iff.mpr hall), findSome_map]
    exact findSome_congr _ _ _ hpoint

/-- The optional clause matcher is unchanged by a final newline appended to an
input that does not already end with one. -/
theorem matchOptPriced_append_nl (xs : List Char) (h : xs.getLast? ≠ some '\n') :
    matchOptPriced (xs ++ ['\n']) = matchOptPriced xs := by
  unfold matchOptPriced
  rw [matchPricedClause_append_nl xs h, dollarOk_append_nl xs h]

/-- The after-colon matcher is unchanged by a final newline appended to an
input that does not already end with one. -/
theorem matchAfterColon_append_nl (xs : List Char) (h : xs.getLast? ≠ some '\n') :
    matchAfterColon (xs ++ ['\n']) = matchAfterColon xs := by
  unfold matchAfterColon
  have hpoint : ∀ r1 ∈ wsRests xs,
      ((ddRunsLazy (r1 ++ ['\n'])).findSome? fun qr =>
        (matchOptPriced qr.2).map fun cp => (qr.1, cp)) =
      ((ddRunsLazy r1).findSome? fun qr =>
        (matchOptPriced qr.2).map fun cp => (qr.1, cp)) := by
    intro r1 hr1
    obtain ⟨w, hw, _⟩ := wsRests_sound _ _ hr1
    have hr1last : r1.getLast? ≠ some '\n' := lastOK_suffix w r1 (hw ▸ h)
    rw [ddRunsLazy_append_nl, findSome_map]
    apply findSome_congr
    intro qr hqr
    obtain ⟨hqeq, _, _⟩ := ddRunsLazy_sound _ _ _ hqr
    have : qr.2.getLast? ≠ some '\n' := lastOK_suffix qr.1 qr.2 (hqeq ▸ hr1last)
    rw [matchOptPriced_append_nl qr.2 this]
  by_cases hall : xs.all isWS = true
  · rw [wsRests_append_nl_all xs hall, List.findSome?_cons]
    have hnil : ((ddRunsLazy ([] : List Char)).findSome? fun qr =>
        (matchOptPriced qr.2).map fun cp => (qr.1, cp)) = none := rfl
    rw [hnil, findSome_map]
    exact findSome_congr _ _ _ hpoint
  · rw [wsRests_append_nl xs (Bool.eq_false_iff.mpr hall), findSome_map]
    exact findSome_congr _ _ _ hpoint

/-- The symbol-tail matcher is unchanged by a final newline appended to an
input that does not already end with one. -/
theorem matchSymbolTail_append_nl (xs : List Char) (h : xs.getLast? ≠ some '\n') :
    matchSymbolTail (xs ++ ['\n']) = matchSymbolTail xs := by
  unfold matchSymbolTail
  rw [dotRuns_append_nl, findSome_map]
  apply findSome_congr
  intro sr hsr
  obtain ⟨hseq, _⟩ := dotRuns_sound _ _ _ hsr
  have hsr2last : sr.2.getLast? ≠ some '\n' := lastOK_suffix sr.1 sr.2 (hseq ▸ h)
  show (match sr.2 ++ ['\n'] with
    | ']' :: ':' :: r2 => (matchAfterColon r2).map fun qc => (sr.1, qc.1, qc.2)
    | _ => none : Option (List Char × List Char × Option (List Char × List Char))) =
    (match sr.2 with
    | ']' :: ':' :: r2 => (matchAfterColon r2).map fun qc => (sr.1, qc.1, qc.2)
    | _ => none)
  split
  case h_1 r2 heq =>
    rcases hs2 : sr.2 with _ | ⟨x, _ | ⟨y, t⟩⟩ <;> rw [hs2] at heq
    · rw [List.nil_append] at heq
      injection heq with hx _
      exact absurd hx (by decide)
    · rw [List.cons_append, List.nil_append] at heq
      injection heq with hx heq2
      injection heq2 with hy _
      exact absurd hy (by decide)
    · rw [List.cons_append, List.cons_append] at heq
      injection heq with hx heq2
      injection heq2 with hy heq3
      subst hx
      subst hy
      subst heq3
      have htlast : t.getLast? ≠ some '\n' := by
        rw [hs2] at hsr2last
        exact lastOK_suffix [']', ':'] t hsr2last
      rw [matchAfterColon_append_nl t htlast]
      rfl
  case h_2 hne =>
    split
    case h_1 r2 heq =>
      exact (hne (r2 ++ ['\n'])
        (by rw [heq, List.cons_append, List.cons_append])).elim
    case h_2 => rfl

/-- The whole pattern matcher is unchanged by one final newline appended to an
input that does not already end with a newline. -/
theorem patternMatch_append_nl (xs : List Char) (h : xs.getLast? ≠ some '\n') :
    patternMatch (xs ++ ['\n']) = patternMatch xs := by
  unfold patternMatch
  rw [dotRuns_append_nl, findSome_map]
  apply findSome_congr
  intro lr hlr
  obtain ⟨hleq, _⟩ := dotRuns_sound _ _ _ hlr
  have hlr2last : lr.2.getLast? ≠ some '\n' := lastOK_suffix lr.1 lr.2 (hleq ▸ h)
  have hpoint : ∀ r1 ∈ wsRests lr.2,
      (match r1 ++ ['\n'] with
      | '[' :: r2 =>
        (matchSymbolTail r2).map fun sqc => ReGroups.mk lr.1 sqc.1 sqc.2.1 sqc.2.2
      | _ => none : Option ReGroups) =
      (match r1 with
      | '[' :: r2 =>
        (matchSymbolTail r2).map fun sqc => ReGroups.mk lr.1 sqc.1 sqc.2.1 sqc.2.2
      | _ => none : Option ReGroups) := by
    intro r1 hr1
    obtain ⟨w, hw, _⟩ := wsRests_sound _ _ hr1
    have hr1last : r1.getLast? ≠ some '\n' := lastOK_suffix w r1 (hw ▸ hlr2last)
    split
    case h_1 r2 heq =>
      cases r1 with
      | nil =>
        rw [List.nil_append] at heq
        injection heq with hx _
        exact absurd hx (by decide)
      | cons x t =>
        rw [List.cons_append] at heq
        injection heq with hx ht
        subst hx
        subst ht
        have htlast : t.getLast? ≠ some '\n' := lastOK_suffix ['['] t hr1last
        rw [matchSymbolTail_append_nl t htlast]
        rfl
    case h_2 hne =>
      split
      case h_1 r2 =>
        exact (hne (r2 ++ ['\n']) (List.cons_append '[' r2 ['\n'])).elim
      case h_2 => rfl
  by_cases hall : lr.2.all isWS = true
  · rw [wsRests_append_nl_all lr.2 hall, List.findSome?_cons]
    have hnil : (match ([] : List Char) with
      | '[' :: r2 =>
        (matchSymbolTail r2).map fun sqc => ReGroups.mk lr.1 sqc.1 sqc.2.1 sqc.2.2
      | _ => none : Option ReGroups) = none := rfl
    rw [hnil, findSome_map]
    exact findSome_congr _ _ _ hpoint
  · rw [wsRests_append_nl lr.2 (Bool.eq_false_iff.mpr hall), findSome_map]
    exact findSome_congr _ _ _ hpoint

/-! ## Claim C9: one trailing newline is accepted -/

/-- C9: appending exactly one trailing newline to a parsed descriptor string
(one that does not itself end in a newline) leaves from_string successful
with identical fields: the dollar anchor of the compiled pattern also matches
just before one final newline, although the input is then not a
character-for-character match of the grammar. -/
theorem c9_trailing_newline (s : String) (a : PricedAsset)
    (h : PricedAsset.from_string s = .ok a)
    (hnl : s.data.getLast? ≠ some '\n') :
    PricedAsset.from_string (s ++ "\n") = .ok a := by
  have hdata : (s ++ "\n").data = s.data ++ ['\n'] := String.data_append s "\n"
  unfold PricedAsset.from_string at h ⊢
  rw [hdata, patternMatch_append_nl s.data hnl]
  exact h

/-- Closed instance of the C9 theorem on the specification's example. -/
theorem c9_trailing_newline_witness :
    PricedAsset.from_string ("Apple [AAPL]: 10" ++ "\n") =
      .ok ⟨"Apple", "AAPL", ⟨10, 0⟩, none, none⟩ :=
  c9_trailing_newline "Apple [AAPL]: 10" ⟨"Apple", "AAPL", ⟨10, 0⟩, none, none⟩
    (by rfl) (by decide)

/-! ## Decimal rendering round trip -/

/-- The digit character of n below 10 has code 48 + n. -/
theorem digitChar_toNat (n : Nat) (h : n < 10) : (digitChar n).toNat = 48 + n := by
  interval_cases n <;> decide

/-- Value of a digit list extended by one digit. -/
theorem natOfDigits_append_single (A : List Char) (c : Char) :
    natOfDigits (A ++ [c]) = 10 * natOfDigits A + (c.toNat - 48) := by
  unfold natOfDigits
  rw [List.foldl_append]
  rfl

/-- natDigitsAux below 10 with positive fuel. -/
theorem natDigitsAux_lt10 (fuel n : Nat) (h : n < 10) :
    natDigitsAux (fuel + 1) n = [digitChar n] := by
  rw [natDigitsAux, if_pos h]

/-- natDigits below 10. -/
theorem natDigits_lt10 (n : Nat) (h : n < 10) : natDigits n = [digitChar n] :=
  natDigitsAux_lt10 n n h

/-- natDigitsAux does not depend on the fuel, as long as it is sufficient. -/
theorem natDigitsAux_fuel (f1 f2 n : Nat) (h1 : n < f1) (h2 : n < f2) :
    natDigitsAux f1 n = natDigitsAux f2 n := by
  induction f1 generalizing f2 n with
  | zero => cases h1
  | succ f ih =>
    cases f2 with
    | zero => cases h2
    | succ f2p =>
      rw [natDigitsAux, natDigitsAux]
      by_cases hn : n < 10
      · rw [if_pos hn, if_pos hn]
      · rw [if_neg hn, if_neg hn]
        have hd : n / 10 < n := Nat.div_lt_self
          (by omega) (by norm_num)
        rw [ih f2p (n / 10) (by omega) (by omega)]

/-- The recursion equation of natDigits. -/
theorem natDigits_eq (n : Nat) :
    natDigits n =
      if n < 10 then [digitChar n]
      else natDigits (n / 10) ++ [digitChar (n % 10)] := by
  unfold natDigits
  rw [natDigitsAux]
  by_cases hn : n < 10
  · rw [if_pos hn, if_pos hn]
  · rw [if_neg hn, if_neg hn]
    have hd : n / 10 < n := Nat.div_lt_self (by omega) (by norm_num)
    rw [natDigitsAux_fuel n (n / 10 + 1) (n / 10) (by omega) (by omega)]

/-- natOfDigits inverts natDigits. -/
theorem natOfDigits_natDigits (n : Nat) : natOfDigits (natDigits n) = n := by
  induction n using Nat.strong_induction_on with
  | _ n ih =>
    rw [natDigits_eq]
    by_cases hn : n < 10
    · rw [if_pos hn]
      show natOfDigits ([] ++ [digitChar n]) = n
      rw [natOfDigits_append_single]
      have : natOfDigits [] = 0 := rfl
      rw [this, digitChar_toNat n hn]
      omega
    · rw [if_neg hn, natOfDigits_append_single]
      have hd : n / 10 < n := Nat.div_lt_self (by omega) (by norm_num)
      rw [ih (n / 10) hd, digitChar_toNat (n % 10) (Nat.mod_lt n (by norm_num))]
      omega

/-- Value of a concatenation of digit lists. -/
theorem natOfDigits_append (A B : List Char) :
    natOfDigits (A ++ B) = natOfDigits A * 10 ^ B.length + natOfDigits B := by
  have key : ∀ (B : List Char) (a : Nat),
      B.foldl (fun a c => 10 * a + (c.toNat - 48)) a =
        a * 10 ^ B.length + B.foldl (fun a c => 10 * a + (c.toNat - 48)) 0 := by
    intro B
    induction B with
    | nil => intro a; simp
    | cons c B ih =>
      intro a
      rw [List.foldl_cons, List.foldl_cons, ih (10 * a + (c.toNat - 48)),
        ih (10 * 0 + (c.toNat - 48))]
      rw [List.length_cons]
      ring
  unfold natOfDigits
  rw [List.foldl_append, key B (List.foldl _ 0 A)]

/-- Leading zeros do not change the value of a digit list. -/
theorem natOfDigits_replicate_zero (k : Nat) (B : List Char) :
    natOfDigits (List.replicate k '0' ++ B) = natOfDigits B := by
  induction k with
  | zero => rw [List.replicate_zero, List.nil_append]
  | succ m ih =>
    rw [List.replicate_succ, List.cons_append]
    show natOfDigits (List.replicate m '0' ++ B) = natOfDigits B
    exact ih

/-- natDigits is all non-dot characters. -/
theorem natDigits_no_dot (n : Nat) : (natDigits n).all (fun c => c != '.') = true := by
  have h := natDigits_all_digit n
  rw [List.all_eq_true] at h ⊢
  intro c hc
  have hd := h c hc
  rw [bne_iff_ne]
  intro he
  subst he
  exact Bool.noConfusion hd

/-- takeWhile of a list that satisfies the predicate everywhere. -/
theorem takeWhile_all {p : Char → Bool} {l : List Char} (h : l.all p = true) :
    l.takeWhile p = l := by
  induction l with
  | nil => rfl
  | cons c cs ih =>
    rw [List.all_cons, Bool.and_eq_true] at h
    rw [List.takeWhile_cons, if_pos h.1, ih h.2]

/-- dropWhile of a list that satisfies the predicate everywhere. -/
theorem dropWhile_all {p : Char → Bool} {l : List Char} (h : l.all p = true) :
    l.dropWhile p = [] := by
  induction l with
  | nil => rfl
  | cons c cs ih =>
    rw [List.all_cons, Bool.and_eq_true] at h
    rw [List.dropWhile_cons, if_pos h.1, ih h.2]

/-- takeWhile of a dot-free prefix followed by a dot. -/
theorem takeWhile_dot (A B : List Char) (hA : A.all (fun c => c != '.') = true) :
    (A ++ '.' :: B).takeWhile (fun c => c != '.') = A := by
  induction A with
  | nil =>
    rw [List.nil_append, List.takeWhile_cons]
    simp
  | cons c cs ih =>
    rw [List.all_cons, Bool.and_eq_true] at hA
    rw [List.cons_append, List.takeWhile_cons, if_pos hA.1, ih hA.2]

/-- dropWhile of a dot-free prefix followed by a dot. -/
theorem dropWhile_dot (A B : List Char) (hA : A.all (fun c => c != '.') = true) :
    (A ++ '.' :: B).dropWhile (fun c => c != '.') = '.' :: B := by
  induction A with
  | nil =>
    rw [List.nil_append, List.dropWhile_cons]
    simp
  | cons c cs ih =>
    rw [List.all_cons, Bool.and_eq_true] at hA
    rw [List.cons_append, List.dropWhile_cons, if_pos hA.1, ih hA.2]

/-- A nonempty list has false isEmpty. -/
theorem not_isEmpty_of_ne {l : List Char} (h : l ≠ []) : (!l.isEmpty) = true := by
  cases l with
  | nil => exact absurd rfl h
  | cons c cs => rfl

/-- Digit characters are dot-free. -/
theorem no_dot_of_all_digit {l : List Char} (h : l.all Char.isDigit = true) :
    l.all (fun c => c != '.') = true := by
  rw [List.all_eq_true] at h ⊢
  intro c hc
  have hd := h c hc
  rw [bne_iff_ne]
  intro he
  subst he
  exact Bool.noConfusion hd

/-- Parsing an integer-rendered digit list. -/
theorem decOfString_digits (ds : List Char) (h1 : ds.all Char.isDigit = true)
    (h2 : ds ≠ []) : decOfString ds = some ⟨natOfDigits ds, 0⟩ := by
  unfold decOfString
  rw [takeWhile_all (no_dot_of_all_digit h1), dropWhile_all (no_dot_of_all_digit h1)]
  show (if (ds.all Char.isDigit && !ds.isEmpty) = true then
      some (⟨natOfDigits ds, 0⟩ : Dec) else none) = some ⟨natOfDigits ds, 0⟩
  rw [if_pos]
  rw [Bool.and_eq_true]
  exact ⟨h1, not_isEmpty_of_ne h2⟩

/-- Parsing a digit list with one embedded dot. -/
theorem decOfString_dotted (A B : List Char)
    (hA : A.all Char.isDigit = true) (hB : B.all Char.isDigit = true)
    (hne : A ++ B ≠ []) :
    decOfString (A ++ '.' :: B) = some ⟨natOfDigits (A ++ B), -(B.length : Int)⟩ := by
  have hAB : (A ++ B).all Char.isDigit = true := by
    rw [List.all_append, Bool.and_eq_true]
    exact ⟨hA, hB⟩
  unfold decOfString
  rw [takeWhile_dot A B (no_dot_of_all_digit hA), dropWhile_dot A B (no_dot_of_all_digit hA)]
  show (if (((A ++ B).all Char.isDigit && B.all fun c => c != '.') &&
      !(A ++ B).isEmpty) = true then
      some (⟨natOfDigits (A ++ B), -(B.length : Int)⟩ : Dec) else none) =
    some ⟨natOfDigits (A ++ B), -(B.length : Int)⟩
  rw [if_pos]
  rw [Bool.and_eq_true, Bool.and_eq_true]
  exact ⟨⟨hAB, no_dot_of_all_digit hB⟩, not_isEmpty_of_ne hne⟩

/-- all is preserved by take. -/
theorem all_take {p : Char → Bool} {l : List Char} (h : l.all p = true) (n : Nat) :
    (l.take n).all p = true := by
  rw [List.all_eq_true] at h ⊢
  exact fun c hc => h c (List.mem_of_mem_take hc)

/-- all is preserved by drop. -/
theorem all_drop {p : Char → Bool} {l : List Char} (h : l.all p = true) (n : Nat) :
    (l.drop n).all p = true := by
  rw [List.all_eq_true] at h ⊢
  exact fun c hc => h c (List.mem_of_mem_drop hc)

/-- A replicated zero list is all digits. -/
theorem all_digit_replicate_zero (k : Nat) :
    (List.replicate k '0').all Char.isDigit = true := by
  rw [List.all_eq_true]
  intro c hc
  rw [List.eq_of_mem_replicate hc]
  decide

/-- Parsing back the plain (non-scientific) str rendering of a Decimal
reproduces it exactly, coefficient and exponent. -/
theorem decOfString_decStr (d : Dec)
    (h : (decStr d).data.all isDigitDot = true) :
    decOfString (decStr d).data = some d := by
  obtain ⟨c, e⟩ := d
  have hds := natDigits_all_digit c
  have hdsne := natDigits_ne_nil c
  by_cases hmain : e ≤ 0 ∧ -6 ≤ e + ((natDigits c).length : Int) - 1
  · by_cases h0 : e = 0
    · have hstr : (decStr ⟨c, e⟩).data = natDigits c := by
        simp only [decStr]
        rw [if_pos hmain, if_pos h0]
      rw [hstr, decOfString_digits _ hds hdsne, natOfDigits_natDigits, h0]
    · by_cases hadj : 0 ≤ e + ((natDigits c).length : Int) - 1
      · have hm0 : (0 : Int) ≤ ((natDigits c).length : Int) + e := by omega
        have hstr : (decStr ⟨c, e⟩).data =
            (natDigits c).take (((natDigits c).length : Int) + e).toNat ++
              '.' :: (natDigits c).drop (((natDigits c).length : Int) + e).toNat := by
          simp only [decStr]
          rw [if_pos hmain, if_neg h0, if_pos hadj]
        have htn : ((((natDigits c).length : Int) + e).toNat : Int) =
            ((natDigits c).length : Int) + e := Int.toNat_of_nonneg hm0
        have hmlt : (((natDigits c).length : Int) + e).toNat < (natDigits c).length := by
          zify
          rw [htn]
          omega
        rw [hstr, decOfString_dotted _ _ (all_take hds _) (all_drop hds _)
          (by rw [List.take_append_drop]; exact hdsne)]
        rw [List.take_append_drop, natOfDigits_natDigits, List.length_drop]
        have hexp : -((((natDigits c).length -
            (((natDigits c).length : Int) + e).toNat : Nat)) : Int) = e := by
          rw [Nat.cast_sub hmlt.le, htn]
          ring
        rw [hexp]
      · have hstr : (decStr ⟨c, e⟩).data =
            '0' :: '.' :: (List.replicate
              (-(e + ((natDigits c).length : Int) - 1) - 1).toNat '0' ++ natDigits c) := by
          simp only [decStr]
          rw [if_pos hmain, if_neg h0, if_neg hadj]
        have hform : (decStr ⟨c, e⟩).data =
            ['0'] ++ '.' :: (List.replicate
              (-(e + ((natDigits c).length : Int) - 1) - 1).toNat '0' ++ natDigits c) := by
          rw [hstr]
          rfl
        rw [hform, decOfString_dotted _ _ (by decide)
          (by
            rw [List.all_append, Bool.and_eq_true]
            exact ⟨all_digit_replicate_zero _, hds⟩)
          (by
            intro habs
            rw [List.append_eq_nil] at habs
            exact absurd habs.1 (by decide))]
        have hv : natOfDigits (['0'] ++ (List.replicate
            (-(e + ((natDigits c).length : Int) - 1) - 1).toNat '0' ++ natDigits c)) = c := by
          have h1 : (['0'] : List Char) = List.replicate 1 '0' := rfl
          rw [h1, natOfDigits_replicate_zero, natOfDigits_replicate_zero,
            natOfDigits_natDigits]
        rw [hv]
        have hzc : (((-(e + ((natDigits c).length : Int) - 1) - 1).toNat : Int)) =
            -e - ((natDigits c).length : Int) := by
          rw [Int.toNat_of_nonneg (by omega)]
          ring
        have hlen : (List.replicate (-(e + ((natDigits c).length : Int) - 1) - 1).toNat '0' ++
            natDigits c).length =
            (-(e + ((natDigits c).length : Int) - 1) - 1).toNat + (natDigits c).length := by
          rw [List.length_append, List.length_replicate]
        rw [hlen]
        have hexp : -((((-(e + ((natDigits c).length : Int) - 1) - 1).toNat +
            (natDigits c).length : Nat)) : Int) = e := by
          push_cast
          omega
        rw [hexp]
  · exfalso
    have hstr : (decStr ⟨c, e⟩).data =
        (natDigits c).take 1 ++
          (if 1 < (natDigits c).length then '.' :: (natDigits c).drop 1 else []) ++
          'E' :: (if e + ((natDigits c).length : Int) - 1 < 0 then
            '-' :: natDigits (-(e + ((natDigits c).length : Int) - 1)).toNat
          else '+' :: natDigits (e + ((natDigits c).length : Int) - 1).toNat) := by
      simp only [decStr]
      rw [if_neg hmain]
    have hmem : 'E' ∈ (decStr ⟨c, e⟩).data := by
      rw [hstr]
      exact List.mem_append_right _ (List.mem_cons_self _ _)
    rw [List.all_eq_true] at h
    exact Bool.noConfusion (h 'E' hmem)

/-- natDigits of a number below 100 has at most two digits, exactly two from
10 up. -/
theorem natDigits_two_digits (r : Nat) (h1 : 10 ≤ r) (h2 : r < 100) :
    natDigits r = [digitChar (r / 10), digitChar (r % 10)] := by
  rw [natDigits_eq, if_neg (by omega), natDigits_lt10 (r / 10) (by omega)]
  rfl

/-- Parsing back the .2f rendering yields exactly the 2-place quantisation. -/
theorem decOfString_fmt2 (p : Dec) :
    decOfString (fmt2 p).data = some (quant2 p) := by
  have hpad : ∃ pad : List Char, (fmt2 p).data = natDigits (quantCoeff2 p / 100) ++ '.' :: pad ∧
      pad.all Char.isDigit = true ∧ pad.length = 2 ∧
      natOfDigits pad = quantCoeff2 p % 100 := by
    by_cases h : quantCoeff2 p % 100 < 10
    · refine ⟨'0' :: natDigits (quantCoeff2 p % 100), ?_, ?_, ?_, ?_⟩
      · show (fmt2 p).data = _
        simp only [fmt2]
        rw [if_pos h]
      · rw [List.all_cons, Bool.and_eq_true]
        exact ⟨by decide, natDigits_all_digit _⟩
      · rw [natDigits_lt10 _ h]
        rfl
      · rw [natDigits_lt10 _ h]
        show natOfDigits (['0'] ++ [digitChar (quantCoeff2 p % 100)]) = _
        rw [natOfDigits_append_single, digitChar_toNat _ h]
        show 10 * natOfDigits ['0'] + _ = _
        have h0 : natOfDigits ['0'] = 0 := rfl
        rw [h0]
        omega
    · have h2 : quantCoeff2 p % 100 < 100 := Nat.mod_lt _ (by norm_num)
      refine ⟨natDigits (quantCoeff2 p % 100), ?_, natDigits_all_digit _, ?_, ?_⟩
      · show (fmt2 p).data = _
        simp only [fmt2]
        rw [if_neg h]
      · rw [natDigits_two_digits _ (by omega) h2]
        rfl
      · rw [natOfDigits_natDigits]
  obtain ⟨pad, hdata, hpdig, hplen, hpval⟩ := hpad
  rw [hdata, decOfString_dotted _ _ (natDigits_all_digit _) hpdig
    (by
      intro habs
      rw [List.append_eq_nil] at habs
      exact natDigits_ne_nil _ habs.1)]
  rw [natOfDigits_append, natOfDigits_natDigits, hplen, hpval]
  show some (⟨quantCoeff2 p / 100 * 10 ^ 2 + quantCoeff2 p % 100, -(2 : Int)⟩ : Dec) = _
  have hval : quantCoeff2 p / 100 * 10 ^ 2 + quantCoeff2 p % 100 = quantCoeff2 p := by
    omega
  rw [hval]
  rfl

/-- Quantisation to two places is numerically lossless when the value already
has at most two decimal places. -/
theorem quant2_numEq (p : Dec) (h : -2 ≤ p.exp) : (quant2 p).numEq p = true := by
  obtain ⟨c, e⟩ := p
  simp only at h
  unfold quant2 quantCoeff2 Dec.numEq
  rw [if_pos (by omega : (0 : Int) ≤ e + 2)]
  simp only
  rw [decide_eq_true_iff]
  have hmin : min (-2 : Int) e = -2 := by omega
  rw [hmin]
  have h1 : ((-2 : Int) - -2).toNat = 0 := by rfl
  have h2 : (e - -2).toNat = (e + 2).toNat := by omega
  rw [h1, h2, pow_zero, mul_one, mul_comm]

/-- A member of an all-true list satisfies the predicate. -/
theorem all_mem {p : Char → Bool} {l : List Char} {c : Char} (h : l.all p = true)
    (hc : c ∈ l) : p c = true := List.all_eq_true.mp h c hc

/-- The input consumed by a successful after-colon match never contains a
right bracket: every character belongs to the whitespace, digit-or-dot,
at-sign, uppercase or final-newline classes. -/
theorem afterColon_no_rbracket (r : List Char)
    (x : List Char × Option (List Char × List Char))
    (h : matchAfterColon r = some x) (hmem : ']' ∈ r) : False := by
  obtain ⟨q, cp⟩ := x
  obtain ⟨w2, rest, hreq, hw2, _, hqdd, hopt⟩ := matchAfterColon_sound r q cp h
  subst hreq
  rcases List.mem_append.mp hmem with hm | hm
  · exact Bool.noConfusion (all_mem hw2 hm)
  rcases List.mem_append.mp hm with hm2 | hm2
  · exact Bool.noConfusion (all_mem hqdd hm2)
  rcases matchOptPriced_sound rest cp hopt with ⟨c2, p2, _, hclause⟩ | ⟨_, hdollar⟩
  · obtain ⟨w3, a, b, c3, w4, w5, t, hrest, hw3, hw4, hw5, _, hua, hub, huc,
      _, hpdd, hdt⟩ := matchPricedClause_sound rest c2 p2 hclause
    subst hrest
    rcases List.mem_append.mp hm2 with hm3 | hm3
    · exact Bool.noConfusion (all_mem hw3 hm3)
    rcases List.mem_cons.mp hm3 with he | hm4
    · exact absurd he (by decide)
    rcases List.mem_append.mp hm4 with hm5 | hm5
    · exact Bool.noConfusion (all_mem hw4 hm5)
    rcases List.mem_cons.mp hm5 with he | hm6
    · subst he; exact Bool.noConfusion hua
    rcases List.mem_cons.mp hm6 with he | hm7
    · subst he; exact Bool.noConfusion hub
    rcases List.mem_cons.mp hm7 with he | hm8
    · subst he; exact Bool.noConfusion huc
    rcases List.mem_append.mp hm8 with hm9 | hm9
    · exact Bool.noConfusion (all_mem hw5 hm9)
    rcases List.mem_append.mp hm9 with hm10 | hm10
    · exact Bool.noConfusion (all_mem hpdd hm10)
    · rcases dollarOk_cases t hdt with ht | ht <;> subst ht
      · cases hm10
      · rcases List.mem_singleton.mp hm10 with he
        exact absurd he (by decide)
  · rcases dollarOk_cases rest hdollar with ht | ht <;> subst ht
    · cases hm2
    · rcases List.mem_singleton.mp hm2 with he
      exact absurd he (by decide)

/-- If an all-whitespace-prefixed bracket split coincides with a later
bracket occurrence after a bracket-free block, the block is all
whitespace. -/
theorem bracket_split (A : List Char) :
    ∀ (w r2 X : List Char), w.all isWS = true → '[' ∉ A →
    w ++ '[' :: r2 = A ++ ' ' :: '[' :: X → A.all isWS = true := by
  induction A with
  | nil => intro w r2 X _ _ _; rfl
  | cons a A2 ih =>
    intro w r2 X hw hA heq
    cases w with
    | nil =>
      rw [List.nil_append, List.cons_append] at heq
      injection heq with h1 _
      subst h1
      exact absurd (List.mem_cons_self _ _) hA
    | cons c w2 =>
      rw [List.cons_append, List.cons_append] at heq
      injection heq with h1 h2
      rw [List.all_cons, Bool.and_eq_true] at hw
      rw [List.all_cons, Bool.and_eq_true]
      subst h1
      refine ⟨hw.1, ih w2 r2 X hw.2 (fun hm => hA (List.mem_cons_of_mem _ hm)) h2⟩

/-- takeWhile of an all-class prefix followed by a non-class head. -/
theorem takeWhile_append_run (p : Char → Bool) (w r : List Char)
    (hw : w.all p = true) (hr : ∀ c t, r = c :: t → p c = false) :
    (w ++ r).takeWhile p = w := by
  induction w with
  | nil =>
    rw [List.nil_append]
    cases hr2 : r with
    | nil => rfl
    | cons c t => rw [List.takeWhile_cons, if_neg (by rw [hr c t hr2]; exact Bool.noConfusion)]
  | cons c w2 ih =>
    rw [List.all_cons, Bool.and_eq_true] at hw
    rw [List.cons_append, List.takeWhile_cons, if_pos hw.1, ih hw.2]

/-- The greedy whitespace star first tries the split at the maximal run. -/
theorem wsRests_head (w r : List Char) (hw : w.all isWS = true)
    (hr : ∀ c t, r = c :: t → isWS c = false) :
    ∃ rest, wsRests (w ++ r) = r :: rest := by
  unfold wsRests
  rw [runSplits_eq_range, takeWhile_append_run isWS w r hw hr, List.map_map]
  rw [List.range_succ, List.map_append]
  refine ⟨((List.range w.length).map
    (fun k => ((fun tr => tr.2) ∘ fun k => ((w ++ r).take k, (w ++ r).drop k)) k)).reverse, ?_⟩
  rw [List.reverse_append]
  have hd : (List.map ((fun tr => tr.2) ∘ fun k => ((w ++ r).take k, (w ++ r).drop k))
      [w.length]).reverse = [r] := by
    simp [List.drop_left]
  rw [hd]
  rfl

/-- The greedy digit-or-dot plus first tries the split at the maximal run. -/
theorem ddRunsGreedy_head (q r : List Char) (hq : q.all isDigitDot = true)
    (hqne : q ≠ []) (hr : ∀ c t, r = c :: t → isDigitDot c = false) :
    ∃ rest, ddRunsGreedy (q ++ r) = (q, r) :: rest := by
  unfold ddRunsGreedy
  rw [runSplits_eq_range, takeWhile_append_run isDigitDot q r hq hr]
  obtain ⟨m, hm⟩ : ∃ m, q.length = m + 1 := by
    cases hql : q.length with
    | zero => exact absurd (List.length_eq_zero.mp hql) hqne
    | succ m => exact ⟨m, rfl⟩
  rw [hm, List.range_succ_eq_map, List.map_cons, List.drop_succ_cons, List.drop_zero,
    List.map_map]
  have hrange : List.range (m + 1) = List.range m ++ [m] := List.range_succ m
  rw [hrange, List.map_append, List.reverse_append]
  have hd : (List.map ((fun k => ((q ++ r).take k, (q ++ r).drop k)) ∘ Nat.succ)
      [m]).reverse = [(q, r)] := by
    have h1 : ((fun k => ((q ++ r).take k, (q ++ r).drop k)) ∘ Nat.succ) m =
        ((q ++ r).take (m + 1), (q ++ r).drop (m + 1)) := rfl
    have h2 : (q ++ r).take (m + 1) = q := by
      rw [← hm]
      exact List.take_left q r
    have h3 : (q ++ r).drop (m + 1) = r := by
      rw [← hm]
      exact List.drop_left q r
    simp [h1, h2, h3]
  rw [hd]
  exact ⟨_, rfl⟩

/-- The lazy dot star over a newline-free input enumerates every split in
order of increasing prefix length. -/
theorem dotRuns_all_range (s : List Char) (h : s.all (fun c => c != '\n') = true) :
    dotRuns s = (List.range (s.length + 1)).map (fun k => (s.take k, s.drop k)) := by
  unfold dotRuns
  rw [runSplits_eq_range, takeWhile_all h]

/-- The lazy digit-or-dot plus over a maximal-run input enumerates the
nonempty prefixes in order of increasing length. -/
theorem ddRunsLazy_range (q r : List Char) (hq : q.all isDigitDot = true)
    (hr : ∀ c t, r = c :: t → isDigitDot c = false) :
    ddRunsLazy (q ++ r) =
      (List.range q.length).map (fun k => ((q ++ r).take (k + 1), (q ++ r).drop (k + 1))) := by
  unfold ddRunsLazy
  rw [runSplits_eq_range, takeWhile_append_run isDigitDot q r hq hr,
    List.range_succ_eq_map, List.map_cons, List.drop_succ_cons, List.drop_zero,
    List.map_map]
  rfl

/-- The optional clause fails on a remainder that starts with a digit-or-dot
character. -/
theorem optPriced_fail_dd_head (d : Char) (t : List Char) (hd : isDigitDot d = true) :
    matchOptPriced (d :: t) = none := by
  have hdnl : d ≠ '\n' := by
    intro he
    subst he
    exact Bool.noConfusion hd
  have hclause : matchPricedClause (d :: t) = none := by
    cases hc : matchPricedClause (d :: t) with
    | none => rfl
    | some cp =>
      exfalso
      obtain ⟨c2, p2⟩ := cp
      obtain ⟨w3, a, b, c3, w4, w5, t2, hrest, hw3, _, _, _, _, _, _, _, _, _⟩ :=
        matchPricedClause_sound _ _ _ hc
      cases w3 with
      | nil =>
        rw [List.nil_append] at hrest
        injection hrest with h1 _
        subst h1
        exact Bool.noConfusion hd
      | cons w w3b =>
        rw [List.cons_append] at hrest
        injection hrest with h1 _
        rw [List.all_cons, Bool.and_eq_true] at hw3
        subst h1
        exact not_dd_and_ws d hd hw3.1
  have hdollar : dollarOk (d :: t) = false := by
    cases t with
    | nil =>
      simp only [dollarOk, beq_eq_false_iff_ne, ne_eq]
      exact hdnl
    | cons c2 t2 => rfl
  unfold matchOptPriced
  rw [hclause, hdollar]
  rfl

/-- The after-colon matcher on the canonical unpriced tail: one space, then a
maximal digit-or-dot quantity ending the input. -/
theorem afterColon_canonical_plain (Q : List Char) (hQ : Q.all isDigitDot = true)
    (hQne : Q ≠ []) : matchAfterColon (' ' :: Q) = some (Q, none) := by
  unfold matchAfterColon
  have hcons : (' ' :: Q) = [' '] ++ Q := rfl
  obtain ⟨rest, hws⟩ := wsRests_head [' '] Q (by decide)
    (fun c t h => by
      have hc : c ∈ Q := by rw [h]; exact List.mem_cons_self c t
      have hdd := all_mem hQ hc
      exact Bool.eq_false_iff.mpr (fun habs => not_dd_and_ws c hdd habs))
  rw [hcons, hws, List.findSome?_cons]
  have hQsplit : Q = Q ++ [] := (List.append_nil Q).symm
  have hlazy : ddRunsLazy Q = (List.range Q.length).map
      (fun k => (Q.take (k + 1), Q.drop (k + 1))) := by
    conv_lhs => rw [hQsplit]
    rw [ddRunsLazy_range Q [] hQ (fun c t h => by cases h), List.append_nil]
  rw [hlazy, findSome_map]
  obtain ⟨m, hm⟩ : ∃ m, Q.length = m + 1 := by
    cases hql : Q.length with
    | zero => exact absurd (List.length_eq_zero.mp hql) hQne
    | succ m => exact ⟨m, rfl⟩
  have heval : (List.range Q.length).findSome?
      (fun k => ((matchOptPriced (Q.drop (k + 1))).map fun cp => (Q.take (k + 1), cp))) =
      some (Q, none) := by
    apply findSome_range_eval Q.length m _ _ (by omega)
    · have h1 : Q.drop (m + 1) = [] := by
        apply List.drop_eq_nil_of_le
        omega
      have h2 : Q.take (m + 1) = Q := by
        apply List.take_of_length_le
        omega
      rw [h1, h2]
      rfl
    · intro j hj
      obtain ⟨d, t, hdt⟩ : ∃ d t, Q.drop (j + 1) = d :: t := by
        have hlen : 0 < (Q.drop (j + 1)).length := by
          rw [List.length_drop]
          omega
        cases hq2 : Q.drop (j + 1) with
        | nil => rw [hq2] at hlen; cases hlen
        | cons d t => exact ⟨d, t, rfl⟩
      rw [hdt, optPriced_fail_dd_head d t (by
        have : d ∈ Q.drop (j + 1) := by rw [hdt]; exact List.mem_cons_self d t
        exact all_mem (all_drop hQ (j + 1)) (by rw [hdt]; exact List.mem_cons_self d t))]
      rfl
  rw [show (List.range Q.length).findSome?
      (fun x => Option.map (fun cp => ((Q.take (x + 1), Q.drop (x + 1)).1, cp))
        (matchOptPriced (Q.take (x + 1), Q.drop (x + 1)).2)) = some (Q, none) from heval]

/-- The clause matcher on the canonical encoded clause: space, at-sign,
space, three uppercase letters, space, then a maximal digit-or-dot price
ending the input. -/
theorem pricedClause_canonical (a b c3 : Char) (P : List Char)
    (hua : isUpperAZ a = true) (hub : isUpperAZ b = true) (huc : isUpperAZ c3 = true)
    (hP : P.all isDigitDot = true) (hPne : P ≠ []) :
    matchPricedClause (' ' :: '@' :: ' ' :: a :: b :: c3 :: ' ' :: P) =
      some ([a, b, c3], P) := by
  unfold matchPricedClause
  have h1 : (' ' :: '@' :: ' ' :: a :: b :: c3 :: ' ' :: P) =
      [' '] ++ '@' :: ' ' :: a :: b :: c3 :: ' ' :: P := rfl
  obtain ⟨rest1, hws1⟩ := wsRests_head [' '] ('@' :: ' ' :: a :: b :: c3 :: ' ' :: P)
    (by decide) (fun c t h => by injection h with h1 _; subst h1; rfl)
  have harm : ((wsRests (' ' :: P)).findSome? fun r5 =>
      (ddRunsGreedy r5).findSome? fun pr =>
        if dollarOk pr.2 then some ([a, b, c3], pr.1) else none) =
      some ([a, b, c3], P) := by
    have h3 : (' ' :: P) = [' '] ++ P := rfl
    obtain ⟨rest3, hws3⟩ := wsRests_head [' '] P (by decide)
      (fun c t h => by
        have hc : c ∈ P := by rw [h]; exact List.mem_cons_self c t
        have hdd := all_mem hP hc
        exact Bool.eq_false_iff.mpr (fun habs => not_dd_and_ws c hdd habs))
    rw [h3, hws3, List.findSome?_cons]
    obtain ⟨rest4, hdd4⟩ := ddRunsGreedy_head P [] hP hPne (fun c t h => by cases h)
    rw [List.append_nil] at hdd4
    rw [hdd4, List.findSome?_cons]
    rfl
  have hinner : ((wsRests (' ' :: a :: b :: c3 :: ' ' :: P)).findSome? fun r3 =>
      match r3 with
      | a2 :: b2 :: c2 :: r4 =>
        if isUpperAZ a2 && isUpperAZ b2 && isUpperAZ c2 then
          (wsRests r4).findSome? fun r5 =>
            (ddRunsGreedy r5).findSome? fun pr =>
              if dollarOk pr.2 then some ([a2, b2, c2], pr.1) else none
        else none
      | _ => none) = some ([a, b, c3], P) := by
    have h2 : (' ' :: a :: b :: c3 :: ' ' :: P) = [' '] ++ a :: b :: c3 :: ' ' :: P := rfl
    obtain ⟨rest2, hws2⟩ := wsRests_head [' '] (a :: b :: c3 :: ' ' :: P) (by decide)
      (fun c t h => by
        injection h with h1 _
        subst h1
        exact Bool.eq_false_iff.mpr (fun habs => not_upper_and_ws a hua habs))
    rw [h2, hws2, List.findSome?_cons]
    have hred2 : (match a :: b :: c3 :: ' ' :: P with
      | a2 :: b2 :: c2 :: r4 =>
        if isUpperAZ a2 && isUpperAZ b2 && isUpperAZ c2 then
          (wsRests r4).findSome? fun r5 =>
            (ddRunsGreedy r5).findSome? fun pr =>
              if dollarOk pr.2 then some ([a2, b2, c2], pr.1) else none
        else none
      | _ => none : Option (List Char × List Char)) =
        if isUpperAZ a && isUpperAZ b && isUpperAZ c3 then
          (wsRests (' ' :: P)).findSome? fun r5 =>
            (ddRunsGreedy r5).findSome? fun pr =>
              if dollarOk pr.2 then some ([a, b, c3], pr.1) else none
        else none := rfl
    rw [hred2, if_pos (by rw [Bool.and_eq_true, Bool.and_eq_true]; exact ⟨⟨hua, hub⟩, huc⟩),
      harm]
  have hred1 : (match '@' :: ' ' :: a :: b :: c3 :: ' ' :: P with
    | '@' :: r2 =>
      (wsRests r2).findSome? fun r3 =>
        match r3 with
        | a2 :: b2 :: c2 :: r4 =>
          if isUpperAZ a2 && isUpperAZ b2 && isUpperAZ c2 then
            (wsRests r4).findSome? fun r5 =>
              (ddRunsGreedy r5).findSome? fun pr =>
                if dollarOk pr.2 then some ([a2, b2, c2], pr.1) else none
          else none
        | _ => none
    | _ => none : Option (List Char × List Char)) =
      ((wsRests (' ' :: a :: b :: c3 :: ' ' :: P)).findSome? fun r3 =>
      match r3 with
      | a2 :: b2 :: c2 :: r4 =>
        if isUpperAZ a2 && isUpperAZ b2 && isUpperAZ c2 then
          (wsRests r4).findSome? fun r5 =>
            (ddRunsGreedy r5).findSome? fun pr =>
              if dollarOk pr.2 then some ([a2, b2, c2], pr.1) else none
        else none
      | _ => none) := rfl
  rw [h1, hws1, List.findSome?_cons, hred1, hinner]

/-- The optional clause matcher on the canonical encoded clause. -/
theorem optPriced_canonical (a b c3 : Char) (P : List Char)
    (hua : isUpperAZ a = true) (hub : isUpperAZ b = true) (huc : isUpperAZ c3 = true)
    (hP : P.all isDigitDot = true) (hPne : P ≠ []) :
    matchOptPriced (' ' :: '@' :: ' ' :: a :: b :: c3 :: ' ' :: P) =
      some (some ([a, b, c3], P)) := by
  unfold matchOptPriced
  rw [pricedClause_canonical a b c3 P hua hub huc hP hPne]

/-- The after-colon matcher on the canonical priced tail. -/
theorem afterColon_canonical_priced (Q P : List Char) (a b c3 : Char)
    (hQ : Q.all isDigitDot = true) (hQne : Q ≠ [])
    (hua : isUpperAZ a = true) (hub : isUpperAZ b = true) (huc : isUpperAZ c3 = true)
    (hP : P.all isDigitDot = true) (hPne : P ≠ []) :
    matchAfterColon (' ' :: (Q ++ ' ' :: '@' :: ' ' :: a :: b :: c3 :: ' ' :: P)) =
      some (Q, some ([a, b, c3], P)) := by
  unfold matchAfterColon
  obtain ⟨d0, t0, hd0⟩ : ∃ d t, Q = d :: t := by
    cases hq2 : Q with
    | nil => exact absurd hq2 hQne
    | cons d t => exact ⟨d, t, rfl⟩
  have hT : ∀ c t, (' ' :: '@' :: ' ' :: a :: b :: c3 :: ' ' :: P) = c :: t →
      isDigitDot c = false := by
    intro c t h
    injection h with h1 _
    subst h1
    rfl
  have hcons : (' ' :: (Q ++ ' ' :: '@' :: ' ' :: a :: b :: c3 :: ' ' :: P)) =
      [' '] ++ (Q ++ ' ' :: '@' :: ' ' :: a :: b :: c3 :: ' ' :: P) := rfl
  obtain ⟨rest, hws⟩ := wsRests_head [' ']
    (Q ++ ' ' :: '@' :: ' ' :: a :: b :: c3 :: ' ' :: P) (by decide)
    (fun c t h => by
      rw [hd0, List.cons_append] at h
      injection h with h1 _
      subst h1
      have hdd : isDigitDot d0 = true :=
        all_mem hQ (by rw [hd0]; exact List.mem_cons_self _ _)
      exact Bool.eq_false_iff.mpr (fun habs => not_dd_and_ws d0 hdd habs))
  rw [hcons, hws, List.findSome?_cons]
  have hlazy := ddRunsLazy_range Q (' ' :: '@' :: ' ' :: a :: b :: c3 :: ' ' :: P) hQ hT
  rw [hlazy, findSome_map]
  obtain ⟨m, hm⟩ : ∃ m, Q.length = m + 1 := by
    cases hql : Q.length with
    | zero => exact absurd (List.length_eq_zero.mp hql) hQne
    | succ m => exact ⟨m, rfl⟩
  have heval : (List.range Q.length).findSome? (fun k =>
      ((matchOptPriced ((Q ++ ' ' :: '@' :: ' ' :: a :: b :: c3 :: ' ' :: P).drop (k + 1))).map
        fun cp => ((Q ++ ' ' :: '@' :: ' ' :: a :: b :: c3 :: ' ' :: P).take (k + 1), cp))) =
      some (Q, some ([a, b, c3], P)) := by
    apply findSome_range_eval Q.length m _ _ (by omega)
    · have h1 : (Q ++ ' ' :: '@' :: ' ' :: a :: b :: c3 :: ' ' :: P).drop (m + 1) =
          ' ' :: '@' :: ' ' :: a :: b :: c3 :: ' ' :: P := by
        rw [← hm]
        exact List.drop_left Q _
      have h2 : (Q ++ ' ' :: '@' :: ' ' :: a :: b :: c3 :: ' ' :: P).take (m + 1) = Q := by
        rw [← hm]
        exact List.take_left Q _
      rw [h1, h2, optPriced_canonical a b c3 P hua hub huc hP hPne]
      rfl
    · intro j hj
      have hsplit : (Q ++ ' ' :: '@' :: ' ' :: a :: b :: c3 :: ' ' :: P).drop (j + 1) =
          Q.drop (j + 1) ++ ' ' :: '@' :: ' ' :: a :: b :: c3 :: ' ' :: P := by
        apply List.drop_append_of_le_length
        omega
      obtain ⟨d, t, hdt⟩ : ∃ d t, Q.drop (j + 1) = d :: t := by
        have hlen : 0 < (Q.drop (j + 1)).length := by
          rw [List.length_drop]
          omega
        cases hq2 : Q.drop (j + 1) with
        | nil => rw [hq2] at hlen; cases hlen
        | cons d t => exact ⟨d, t, rfl⟩
      rw [hsplit, hdt, List.cons_append, optPriced_fail_dd_head d _
        (all_mem (all_drop hQ (j + 1)) (by rw [hdt]; exact List.mem_cons_self d t))]
      rfl
  rw [show (List.range Q.length).findSome? (fun x =>
      Option.map (fun cp =>
        (((Q ++ ' ' :: '@' :: ' ' :: a :: b :: c3 :: ' ' :: P).take (x + 1),
          (Q ++ ' ' :: '@' :: ' ' :: a :: b :: c3 :: ' ' :: P).drop (x + 1)).1, cp))
        (matchOptPriced ((Q ++ ' ' :: '@' :: ' ' :: a :: b :: c3 :: ' ' :: P).take (x + 1),
          (Q ++ ' ' :: '@' :: ' ' :: a :: b :: c3 :: ' ' :: P).drop (x + 1)).2)) =
      some (Q, some ([a, b, c3], P)) from heval]

/-! ## Canonical evaluation of the full pattern on encoded strings -/

/-- A digit-or-dot character is not a newline. -/
theorem dd_not_newline (c : Char) (h : isDigitDot c = true) : (c != '\n') = true := by
  rw [bne_iff_ne]
  intro he
  subst he
  exact Bool.noConfusion h

/-- An uppercase letter is not a newline. -/
theorem upper_not_newline (c : Char) (h : isUpperAZ c = true) : (c != '\n') = true := by
  rw [bne_iff_ne]
  intro he
  subst he
  exact Bool.noConfusion h

/-- The str rendering of a Decimal is never empty. -/
theorem decStr_ne_nil (d : Dec) : (decStr d).data ≠ [] := by
  simp only [decStr]
  split_ifs <;>
    first
      | exact natDigits_ne_nil _
      | exact fun habs => List.noConfusion habs
      | exact fun habs => List.noConfusion (List.append_eq_nil.mp habs).2

/-- The symbol-tail matcher on a newline-free symbol followed by the literal
right-bracket colon and a bracket-free accepted remainder: the lazy symbol
star stops exactly at the last bracket, because every earlier split leaves a
right bracket inside the after-colon region, which the after-colon matcher
rejects. -/
theorem symbolTail_canonical (S R Q : List Char) (cp : Option (List Char × List Char))
    (hS : S.all (fun c => c != '\n') = true)
    (hR : R.all (fun c => c != '\n') = true)
    (hmA : matchAfterColon R = some (Q, cp)) :
    matchSymbolTail (S ++ ']' :: ':' :: R) = some (S, Q, cp) := by
  unfold matchSymbolTail
  have hnl : (S ++ ']' :: ':' :: R).all (fun c => c != '\n') = true := by
    rw [List.all_append, Bool.and_eq_true]
    refine ⟨hS, ?_⟩
    rw [List.all_cons, List.all_cons, Bool.and_eq_true, Bool.and_eq_true]
    exact ⟨by decide, by decide, hR⟩
  rw [dotRuns_all_range _ hnl, findSome_map]
  have heval : (List.range ((S ++ ']' :: ':' :: R).length + 1)).findSome? (fun k =>
      (match (S ++ ']' :: ':' :: R).drop k with
       | ']' :: ':' :: r2 => (matchAfterColon r2).map fun qc =>
           ((S ++ ']' :: ':' :: R).take k, qc.1, qc.2)
       | _ => none : Option (List Char × List Char × Option (List Char × List Char)))) =
      some (S, Q, cp) := by
    apply findSome_range_eval _ S.length _ _ (by rw [List.length_append]; omega)
    · rw [List.drop_left, List.take_left]
      show (matchAfterColon R).map (fun qc => (S, qc.1, qc.2)) = some (S, Q, cp)
      rw [hmA]
      rfl
    · intro j hj
      have hsplit : (S ++ ']' :: ':' :: R).drop j = S.drop j ++ ']' :: ':' :: R :=
        List.drop_append_of_le_length (le_of_lt hj)
      obtain ⟨d, D2, hdD⟩ : ∃ d D2, S.drop j = d :: D2 := by
        have hlen : 0 < (S.drop j).length := by
          rw [List.length_drop]
          omega
        cases hq2 : S.drop j with
        | nil => rw [hq2] at hlen; cases hlen
        | cons d D2 => exact ⟨d, D2, rfl⟩
      rw [hsplit, hdD, List.cons_append]
      split
      case h_1 r2 heq =>
        injection heq with h1 h2
        cases D2 with
        | nil =>
          rw [List.nil_append] at h2
          injection h2 with h3 _
          exact absurd h3 (by decide)
        | cons e D3 =>
          rw [List.cons_append] at h2
          injection h2 with h3 h4
          have hmem : ']' ∈ r2 := by
            rw [← h4]
            exact List.mem_append_right _ (List.mem_cons_self _ _)
          cases hac : matchAfterColon r2 with
          | none => rfl
          | some x => exact (afterColon_no_rbracket r2 x hac hmem).elim
      case h_2 => rfl
  exact heval

/-- The full pattern on a canonical encoded string: a newline-free label with
no bracket and no all-whitespace suffix, one space, the bracketed symbol, the
colon, then an accepted bracket-free remainder.  The lazy label star stops
exactly at the encoded label. -/
theorem patternMatch_canonical (L S R Q : List Char) (cp : Option (List Char × List Char))
    (hL : L.all (fun c => c != '\n') = true)
    (hS : S.all (fun c => c != '\n') = true)
    (hR : R.all (fun c => c != '\n') = true)
    (hLnb : '[' ∉ L)
    (hLws : ∀ k, k < L.length → (L.drop k).all isWS = false)
    (hmA : matchAfterColon R = some (Q, cp)) :
    patternMatch (L ++ ' ' :: '[' :: (S ++ ']' :: ':' :: R)) = some ⟨L, S, Q, cp⟩ := by
  unfold patternMatch
  have hEnl : (L ++ ' ' :: '[' :: (S ++ ']' :: ':' :: R)).all (fun c => c != '\n') = true := by
    rw [List.all_append, Bool.and_eq_true]
    refine ⟨hL, ?_⟩
    rw [List.all_cons, List.all_cons, Bool.and_eq_true, Bool.and_eq_true]
    refine ⟨by decide, by decide, ?_⟩
    rw [List.all_append, Bool.and_eq_true]
    refine ⟨hS, ?_⟩
    rw [List.all_cons, List.all_cons, Bool.and_eq_true, Bool.and_eq_true]
    exact ⟨by decide, by decide, hR⟩
  rw [dotRuns_all_range _ hEnl, findSome_map]
  have heval : (List.range ((L ++ ' ' :: '[' :: (S ++ ']' :: ':' :: R)).length + 1)).findSome?
      (fun k => (wsRests ((L ++ ' ' :: '[' :: (S ++ ']' :: ':' :: R)).drop k)).findSome?
        fun r1 =>
          match r1 with
          | '[' :: r2 => (matchSymbolTail r2).map fun sqc =>
              (⟨(L ++ ' ' :: '[' :: (S ++ ']' :: ':' :: R)).take k,
                sqc.1, sqc.2.1, sqc.2.2⟩ : ReGroups)
          | _ => none) = some ⟨L, S, Q, cp⟩ := by
    apply findSome_range_eval _ L.length _ _ (by rw [List.length_append]; omega)
    · rw [List.drop_left, List.take_left]
      obtain ⟨rest, hws⟩ := wsRests_head [' '] ('[' :: (S ++ ']' :: ':' :: R)) (by decide)
        (fun c t h => by injection h with h1 _; subst h1; decide)
      rw [show (' ' :: '[' :: (S ++ ']' :: ':' :: R)) =
        [' '] ++ '[' :: (S ++ ']' :: ':' :: R) from rfl, hws, List.findSome?_cons]
      rw [show (match '[' :: (S ++ ']' :: ':' :: R) with
        | '[' :: r2 => (matchSymbolTail r2).map fun sqc =>
            (⟨L, sqc.1, sqc.2.1, sqc.2.2⟩ : ReGroups)
        | _ => none : Option ReGroups) =
        (matchSymbolTail (S ++ ']' :: ':' :: R)).map (fun sqc =>
            (⟨L, sqc.1, sqc.2.1, sqc.2.2⟩ : ReGroups)) from rfl]
      rw [symbolTail_canonical S R Q cp hS hR hmA]
      rfl
    · intro j hj
      have hsplit : (L ++ ' ' :: '[' :: (S ++ ']' :: ':' :: R)).drop j =
          L.drop j ++ ' ' :: '[' :: (S ++ ']' :: ':' :: R) :=
        List.drop_append_of_le_length (le_of_lt hj)
      rw [hsplit]
      apply List.findSome?_eq_none_iff.mpr
      intro r1 hr1
      obtain ⟨w, hweq, hwall⟩ := wsRests_sound _ _ hr1
      split
      case h_1 r2 =>
        have hall : (L.drop j).all isWS = true :=
          bracket_split (L.drop j) w r2 _ hwall
            (fun hm => hLnb (List.mem_of_mem_drop hm)) hweq.symm
        rw [hLws j hj] at hall
        exact Bool.noConfusion hall
      case h_2 => rfl
  exact heval

/-- First-success of the lazy label star: a parsed label never has a
nonempty all-whitespace suffix, otherwise a shorter label candidate would
have matched first. -/
theorem patternMatch_label_ws (s : List Char) (g : ReGroups)
    (h : patternMatch s = some g) :
    ∀ k, k < g.label.length → (g.label.drop k).all isWS = false := by
  intro k hk
  by_contra habs
  rw [Bool.not_eq_false] at habs
  obtain ⟨w1, rest, hs, hlnl, hw1, hst⟩ := patternMatch_sound s g h
  unfold patternMatch at h
  unfold dotRuns at h
  rw [runSplits_eq_range, findSome_map] at h
  obtain ⟨k0, hk0lt, hk0succ, hk0none⟩ := findSome_range_first _ _ _ h
  obtain ⟨r1, hr1, harm⟩ := findSome_sound _ _ _ hk0succ
  have htake : s.take k0 = g.label := by
    split at harm
    case h_2 => exact Option.noConfusion harm
    case h_1 r2 =>
      cases hms : matchSymbolTail r2 with
      | none => rw [hms] at harm; exact Option.noConfusion harm
      | some sqc =>
        rw [hms] at harm
        injection harm with h2
        rw [← h2]
  have hlen : (s.take k0).length = g.label.length := by rw [htake]
  rw [List.length_take] at hlen
  have hkk0 : k < k0 := by omega
  have hnonek := hk0none k hkk0
  have hsdrop : s.drop k = (g.label.drop k ++ w1) ++ '[' :: rest := by
    rw [hs, List.drop_append_of_le_length (by omega), ← List.append_assoc]
  obtain ⟨r', hwshead⟩ := wsRests_head (g.label.drop k ++ w1) ('[' :: rest)
    (by rw [List.all_append, Bool.and_eq_true]; exact ⟨habs, hw1⟩)
    (fun c t hh => by injection hh with h1 _; subst h1; decide)
  have hnone2 : (wsRests (s.drop k)).findSome? (fun r1 =>
      match r1 with
      | '[' :: r2 => (matchSymbolTail r2).map fun sqc =>
          (⟨s.take k, sqc.1, sqc.2.1, sqc.2.2⟩ : ReGroups)
      | _ => none) = none := hnonek
  rw [hsdrop, hwshead, List.findSome?_cons] at hnone2
  rw [show (match '[' :: rest with
    | '[' :: r2 => (matchSymbolTail r2).map fun sqc =>
        (⟨s.take k, sqc.1, sqc.2.1, sqc.2.2⟩ : ReGroups)
    | _ => none : Option ReGroups) =
    (matchSymbolTail rest).map (fun sqc =>
        (⟨s.take k, sqc.1, sqc.2.1, sqc.2.2⟩ : ReGroups)) from rfl, hst] at hnone2
  rw [show (Option.map (fun sqc =>
      (⟨s.take k, sqc.1, sqc.2.1, sqc.2.2⟩ : ReGroups))
      (some (g.symbol, g.quantity, g.priced))) =
    some (⟨s.take k, g.symbol, g.quantity, g.priced⟩ : ReGroups) from rfl] at hnone2
  exact Option.noConfusion hnone2

/-! ## Inversion of a successful parse -/

/-- A digit-or-dot list is newline-free. -/
theorem all_dd_not_newline (l : List Char) (h : l.all isDigitDot = true) :
    l.all (fun c => c != '\n') = true := by
  rw [List.all_eq_true] at h ⊢
  exact fun c hc => dd_not_newline c (h c hc)

/-- What a successful from_string says about its input and its result: the
pattern matched, the label and symbol are the captured groups, the quantity
group parsed to the quantity field, and the optional clause either is absent
with both currency and price unset, or carries a three-uppercase-letter
currency and a price numeral that parsed to the price field. -/
theorem from_string_ok_inv (s : String) (a : PricedAsset)
    (h : PricedAsset.from_string s = .ok a) :
    ∃ g : ReGroups,
      patternMatch s.data = some g ∧
      g.label = a.label.data ∧
      g.symbol = a.symbol.data ∧
      decOfString g.quantity = some a.quantity ∧
      ((g.priced = none ∧ a.currency = none ∧ a.price = none) ∨
       (∃ c1 c2 c3 P pd, g.priced = some ([c1, c2, c3], P) ∧
         isUpperAZ c1 = true ∧ isUpperAZ c2 = true ∧ isUpperAZ c3 = true ∧
         a.currency = some ⟨[c1, c2, c3]⟩ ∧
         decOfString P = some pd ∧ a.price = some pd)) := by
  unfold PricedAsset.from_string at h
  cases hm : patternMatch s.data with
  | none => rw [hm] at h; cases h
  | some g =>
    rw [hm] at h
    obtain ⟨w1, rest, hseq, hlnl, hw1, hst⟩ := patternMatch_sound s.data g hm
    obtain ⟨rest2, hreq, hsnl, hacq⟩ :=
      matchSymbolTail_sound rest g.symbol g.quantity g.priced hst
    obtain ⟨w2, rest3, haceq, hw2, hqne, hqdd, hopt⟩ :=
      matchAfterColon_sound rest2 g.quantity g.priced hacq
    have hqie : g.quantity.isEmpty = false := by
      cases hq2 : g.quantity with
      | nil => exact absurd hq2 hqne
      | cons c t => rfl
    simp only [hqie, if_true, if_false, Bool.false_eq_true] at h
    cases hd : PricedAsset.decExcept g.quantity with
    | error e => rw [hd] at h; cases h
    | ok q =>
      rw [hd] at h
      have hdq : decOfString g.quantity = some q := by
        unfold PricedAsset.decExcept at hd
        cases hdo : decOfString g.quantity <;> rw [hdo] at hd
        · cases hd
        · injection hd with h2; rw [h2]
      cases hp : g.priced with
      | none =>
        rw [hp] at h
        injection h with h2
        subst h2
        exact ⟨g, rfl, rfl, rfl, hdq, Or.inl ⟨hp, rfl, rfl⟩⟩
      | some cp =>
        rw [hp] at h
        rw [hp] at hopt
        rcases matchOptPriced_sound rest3 (some cp) hopt with
          ⟨c2, p2, hcpeq, hclause⟩ | ⟨hcp, _⟩
        · injection hcpeq with hcpeq2
          obtain ⟨w3, a1, b1, c31, w4, w5, t, hrest3, hw3, hw4, hw5, hcurr,
            hua, hub, huc, hpne, hpdd, hdt⟩ :=
            matchPricedClause_sound rest3 c2 p2 hclause
          have hcie : cp.2.isEmpty = false := by
            rw [hcpeq2]
            cases hp2 : p2 with
            | nil => exact absurd hp2 hpne
            | cons c t2 => rfl
          simp only [hcie, if_true, if_false, Bool.false_eq_true] at h
          cases hd2 : PricedAsset.decExcept cp.2 with
          | error e =>
            rw [hd2] at h
            simp [Except.map] at h
          | ok pd =>
            rw [hd2] at h
            have hdp : decOfString cp.2 = some pd := by
              unfold PricedAsset.decExcept at hd2
              cases hdo : decOfString cp.2 <;> rw [hdo] at hd2
              · cases hd2
              · injection hd2 with h2; rw [h2]
            injection h with h2
            subst h2
            refine ⟨g, rfl, rfl, rfl, hdq,
              Or.inr ⟨a1, b1, c31, p2, pd, ?_, hua, hub, huc, ?_, ?_, rfl⟩⟩
            · rw [hp, hcpeq2, hcurr]
            · show some (cp.1.asString) = some ⟨[a1, b1, c31]⟩
              rw [hcpeq2, hcurr]
              rfl
            · rw [hcpeq2] at hdp
              exact hdp
        · exact Option.noConfusion hcp

/-- Evaluation of from_string given the match result and the decoded
numerals. -/
theorem from_string_eval_of_match (s : String) (g : ReGroups)
    (hpm : patternMatch s.data = some g)
    (q : Dec) (hq : g.quantity ≠ []) (hdq : decOfString g.quantity = some q)
    (pr : Option Dec)
    (hpr : (match g.priced with
            | none => Except.ok none
            | some cp => if cp.2.isEmpty then Except.ok none
                         else (PricedAsset.decExcept cp.2).map some :
        Except PyErr (Option Dec)) = .ok pr) :
    PricedAsset.from_string s = .ok ⟨g.label.asString, g.symbol.asString, q,
      g.priced.map (fun cp => cp.1.asString), pr⟩ := by
  unfold PricedAsset.from_string
  rw [hpm]
  have hqie : g.quantity.isEmpty = false := by
    cases hq2 : g.quantity with
    | nil => exact absurd hq2 hq
    | cons c t => rfl
  have hdec : PricedAsset.decExcept g.quantity = .ok q := by
    unfold PricedAsset.decExcept
    rw [hdq]
  simp only [hqie, if_true, if_false, Bool.false_eq_true, hdec, hpr]

/-! ## Claim C4: the round trip -/

/-- C4 counterexample: "A [B]: 0.0000001" decodes to a descriptor whose label
needs no truncation on re-encoding, yet the quantity Decimal 1E-7 is rendered
by str in scientific notation, so the re-encoded string "A [B]: 1E-7" is
rejected by the pattern: parse(format(d)) raises FormatError instead of
reproducing the fields. -/
theorem c4_counterexample :
    PricedAsset.from_string "A [B]: 0.0000001" =
      .ok ⟨"A", "B", ⟨1, -7⟩, none, none⟩ ∧
    ("A".length +
      (PricedAsset.metaStr ⟨"A", "B", ⟨1, -7⟩, none, none⟩).length ≤ 45) ∧
    PricedAsset.toStr ⟨"A", "B", ⟨1, -7⟩, none, none⟩ = "A [B]: 1E-7" ∧
    PricedAsset.from_string (PricedAsset.toStr ⟨"A", "B", ⟨1, -7⟩, none, none⟩) =
      .error .valueError := by
  refine ⟨by rfl, by decide, by rfl, by rfl⟩

/-- C4 amended: for a descriptor produced by a successful decode, if the label
plus metadata fits in 45 characters, the label contains no left bracket, and
the quantity renders in plain (non-scientific) notation, then re-parsing the
encoded string succeeds and reproduces the label, symbol, quantity and
currency exactly, with the price replaced by its 2-decimal quantisation. -/
theorem c4_round_trip_amended (s : String) (a : PricedAsset)
    (hparse : PricedAsset.from_string s = .ok a)
    (hfit : a.label.length + (PricedAsset.metaStr a).length ≤ 45)
    (hnb : '[' ∉ a.label.data)
    (hplain : (decStr a.quantity).data.all isDigitDot = true) :
    PricedAsset.from_string (PricedAsset.toStr a) =
      .ok { a with price := a.price.map quant2 } := by
  obtain ⟨g, hpm, hglab, hgsym, hdq, hpriced⟩ := from_string_ok_inv s a hparse
  obtain ⟨w1, rest, hseq, hlnl, hw1, hst⟩ := patternMatch_sound s.data g hpm
  obtain ⟨rest2, hreq, hsnl, hacq⟩ :=
    matchSymbolTail_sound rest g.symbol g.quantity g.priced hst
  have hLnl : a.label.data.all (fun c => c != '\n') = true := by
    rw [← hglab]; exact hlnl
  have hSnl : a.symbol.data.all (fun c => c != '\n') = true := by
    rw [← hgsym]; exact hsnl
  have hLws : ∀ k, k < a.label.data.length → (a.label.data.drop k).all isWS = false := by
    intro k hk
    have h2 := patternMatch_label_ws s.data g hpm k (by rw [hglab]; exact hk)
    rw [hglab] at h2
    exact h2
  have hlabellen : a.label.length = a.label.data.length := rfl
  have hk0 : (0 : Int) ≤ 45 - ((PricedAsset.metaStr a).length : Int) := by omega
  have htostrdata : (PricedAsset.toStr a).data =
      a.label.data ++ (PricedAsset.metaStr a).data := by
    unfold PricedAsset.toStr PricedAsset.pySliceTo
    rw [if_pos hk0, List.take_of_length_le (by omega), String.data_append]
  have hQne := decStr_ne_nil a.quantity
  rcases hpriced with ⟨hpn, hcn, hppn⟩ |
    ⟨c1, c2, c3, P, pd, hpsome, hu1, hu2, hu3, hcs, hdp, hps⟩
  · have hmeta : (PricedAsset.metaStr a).data =
        ' ' :: '[' :: (a.symbol.data ++ ']' :: ':' ::
          (' ' :: (decStr a.quantity).data)) := by
      simp only [PricedAsset.metaStr, hppn, String.data_append, List.append_assoc]
      rfl
    have hmA := afterColon_canonical_plain (decStr a.quantity).data hplain hQne
    have hRnl : (' ' :: (decStr a.quantity).data).all (fun c => c != '\n') = true := by
      rw [List.all_cons, Bool.and_eq_true]
      exact ⟨by decide, all_dd_not_newline _ hplain⟩
    have hpm2 : patternMatch (PricedAsset.toStr a).data =
        some ⟨a.label.data, a.symbol.data, (decStr a.quantity).data, none⟩ := by
      rw [htostrdata, hmeta]
      exact patternMatch_canonical a.label.data a.symbol.data
        (' ' :: (decStr a.quantity).data) (decStr a.quantity).data none
        hLnl hSnl hRnl hnb hLws hmA
    have heq : ({ a with price := a.price.map quant2 } : PricedAsset) =
        ⟨a.label, a.symbol, a.quantity, none, none⟩ := by
      rw [hcn, hppn]
      rfl
    rw [heq]
    exact from_string_eval_of_match (PricedAsset.toStr a)
      ⟨a.label.data, a.symbol.data, (decStr a.quantity).data, none⟩ hpm2
      a.quantity hQne (decOfString_decStr a.quantity hplain) none rfl
  · have hPdd := (fmt2_dd pd).2
    have hPne := (fmt2_dd pd).1
    have hmeta : (PricedAsset.metaStr a).data =
        ' ' :: '[' :: (a.symbol.data ++ ']' :: ':' ::
          (' ' :: ((decStr a.quantity).data ++ ' ' :: '@' :: ' ' ::
            c1 :: c2 :: c3 :: ' ' :: (fmt2 pd).data))) := by
      simp only [PricedAsset.metaStr, hps, hcs, String.data_append, List.append_assoc]
      rfl
    have hmA := afterColon_canonical_priced (decStr a.quantity).data (fmt2 pd).data
      c1 c2 c3 hplain hQne hu1 hu2 hu3 hPdd hPne
    have hRnl : (' ' :: ((decStr a.quantity).data ++ ' ' :: '@' :: ' ' ::
        c1 :: c2 :: c3 :: ' ' :: (fmt2 pd).data)).all (fun c => c != '\n') = true := by
      rw [List.all_cons, Bool.and_eq_true]
      refine ⟨by decide, ?_⟩
      rw [List.all_append, Bool.and_eq_true]
      refine ⟨all_dd_not_newline _ hplain, ?_⟩
      rw [List.all_cons, Bool.and_eq_true]
      refine ⟨by decide, ?_⟩
      rw [List.all_cons, Bool.and_eq_true]
      refine ⟨by decide, ?_⟩
      rw [List.all_cons, Bool.and_eq_true]
      refine ⟨by decide, ?_⟩
      rw [List.all_cons, Bool.and_eq_true]
      refine ⟨upper_not_newline c1 hu1, ?_⟩
      rw [List.all_cons, Bool.and_eq_true]
      refine ⟨upper_not_newline c2 hu2, ?_⟩
      rw [List.all_cons, Bool.and_eq_true]
      refine ⟨upper_not_newline c3 hu3, ?_⟩
      rw [List.all_cons, Bool.and_eq_true]
      refine ⟨by decide, ?_⟩
      exact all_dd_not_newline _ hPdd
    have hpm2 : patternMatch (PricedAsset.toStr a).data =
        some ⟨a.label.data, a.symbol.data, (decStr a.quantity).data,
          some ([c1, c2, c3], (fmt2 pd).data)⟩ := by
      rw [htostrdata, hmeta]
      exact patternMatch_canonical a.label.data a.symbol.data
        (' ' :: ((decStr a.quantity).data ++ ' ' :: '@' :: ' ' ::
          c1 :: c2 :: c3 :: ' ' :: (fmt2 pd).data))
        (decStr a.quantity).data (some ([c1, c2, c3], (fmt2 pd).data))
        hLnl hSnl hRnl hnb hLws hmA
    have hcie : ((fmt2 pd).data).isEmpty = false := by
      cases hfp : (fmt2 pd).data with
      | nil => exact absurd hfp hPne
      | cons c t => rfl
    have hpr : (match (⟨a.label.data, a.symbol.data, (decStr a.quantity).data,
          some ([c1, c2, c3], (fmt2 pd).data)⟩ : ReGroups).priced with
        | none => Except.ok none
        | some cp => if cp.2.isEmpty then Except.ok none
                     else (PricedAsset.decExcept cp.2).map some :
        Except PyErr (Option Dec)) = .ok (some (quant2 pd)) := by
      show (if ((fmt2 pd).data).isEmpty then Except.ok none
            else (PricedAsset.decExcept (fmt2 pd).data).map some :
          Except PyErr (Option Dec)) = .ok (some (quant2 pd))
      simp only [hcie, if_true, if_false, Bool.false_eq_true]
      have hdec2 : PricedAsset.decExcept (fmt2 pd).data = .ok (quant2 pd) := by
        unfold PricedAsset.decExcept
        rw [decOfString_fmt2]
      rw [hdec2]
      rfl
    have heq : ({ a with price := a.price.map quant2 } : PricedAsset) =
        ⟨a.label, a.symbol, a.quantity, some ⟨[c1, c2, c3]⟩, some (quant2 pd)⟩ := by
      rw [hcs, hps]
      rfl
    rw [heq]
    exact from_string_eval_of_match (PricedAsset.toStr a)
      ⟨a.label.data, a.symbol.data, (decStr a.quantity).data,
        some ([c1, c2, c3], (fmt2 pd).data)⟩ hpm2
      a.quantity hQne (decOfString_decStr a.quantity hplain)
      (some (quant2 pd)) hpr

/-- Witness for C4 amended: the concrete priced example round-trips. -/
theorem c4_round_trip_amended_witness :
    PricedAsset.from_string "Apple [AAPL]: 10 @ USD 100.00" =
      .ok ⟨"Apple", "AAPL", ⟨10, 0⟩, some "USD", some ⟨10000, -2⟩⟩ ∧
    PricedAsset.from_string
        (PricedAsset.toStr ⟨"Apple", "AAPL", ⟨10, 0⟩, some "USD", some ⟨10000, -2⟩⟩) =
      .ok { (⟨"Apple", "AAPL", ⟨10, 0⟩, some "USD", some ⟨10000, -2⟩⟩ : PricedAsset) with
        price := (some (⟨10000, -2⟩ : Dec)).map quant2 } :=
  ⟨by rfl,
    c4_round_trip_amended "Apple [AAPL]: 10 @ USD 100.00"
      ⟨"Apple", "AAPL", ⟨10, 0⟩, some "USD", some ⟨10000, -2⟩⟩
      (by rfl) (by decide) (by decide) (by decide)⟩
